import Mathlib

/-!
Verification of the dependency-ordering core of the pipe_supertask repository.

The development shallowly embeds the code of
`src/python/lsst/pipe/supertask/graphBuilder.py` (class `GraphBuilder` with
methods `_loadTaskClass`, `makeGraph`, `buildIODatasets`, `_makeGraph`) and,
since the module `pipeTools.py` itself is not present under `src/` (only its
unit tests are), a spec-modelled embedding of the functions
`isPipelineOrdered` and `orderPipeline` following sections 4.1 - 4.3 of the
specification.

Python mappings are modelled as association lists in insertion order,
Python sets as `Finset`, Python dictionaries used purely as lookup tables as
functions into `Option`, and raised exceptions as `Except PipeError`.
Machine integers do not occur; all indices are `Nat`.
-/

set_option maxHeartbeats 1000000

/-- A dataset type: its identity within the core is the name.  The `units`
field mirrors the second component of the mock dataset record used by the
repository tests and stands for all payload a DatasetType may carry besides
its name. -/
structure DatasetType where
  name : String
  units : String
deriving DecidableEq, Repr

instance : Inhabited DatasetType := ⟨⟨"", ""⟩⟩

/-- Capability interface of a loaded task class: derive the named input and
output dataset types from a task configuration.  The configuration type is a
parameter because the core treats configurations as opaque. -/
structure TaskClass (Cfg : Type) where
  getInputDatasetTypes : Cfg → List (String × DatasetType)
  getOutputDatasetTypes : Cfg → List (String × DatasetType)

/-- The TaskDef record: task name, configuration, optionally loaded class and
a label. -/
structure TaskDef (Cfg : Type) where
  taskName : String
  config : Cfg
  taskClass : Option (TaskClass Cfg)
  label : String

/-- The failure kinds of the core.  `duplicateOutput` carries the dataset
type name and both task labels; `missingTaskFactory` carries the offending
label; `attributeError` models the Python AttributeError raised when a
method is looked up on an unresolved (None) task class, carrying the label
of the offending task. -/
inductive PipeError where
  | duplicateOutput (dsName : String) (label1 : String) (label2 : String)
  | missingTaskFactory (label : String)
  | pipelineDataCycle
  | attributeError (label : String)
deriving DecidableEq, Repr

/-- Task factory capability: maps a task name to a loaded class together with
the canonical fully qualified name, or fails with an exception of its own. -/
structure TaskFactory (Cfg : Type) where
  loadTaskClass : String → Except PipeError (TaskClass Cfg × String)

/-- The GraphBuilder object state of graphBuilder.py.  The registry and the
user query are opaque collaborators never touched by the embedded methods,
so they are omitted from the record. -/
structure GraphBuilder (Cfg : Type) where
  taskFactory : TaskFactory Cfg

/-- Embedding of `GraphBuilder._loadTaskClass` (graphBuilder.py lines 70-90):
if the task class is unset, load it through the factory and return a shallow
copy of the TaskDef with `taskClass` and `taskName` set; otherwise return
the TaskDef unchanged. -/
def GraphBuilder._loadTaskClass {Cfg : Type} (gb : GraphBuilder Cfg) (taskDef : TaskDef Cfg) :
    Except PipeError (TaskDef Cfg) :=
  match taskDef.taskClass with
  | none =>
    match gb.taskFactory.loadTaskClass taskDef.taskName with
    | .error e => .error e
    | .ok (tClass, tName) => .ok { taskDef with taskClass := some tClass, taskName := tName }
  | some _ => .ok taskDef

/-- One entry of the name-to-DatasetType lookup table of `buildIODatasets`:
writing a dataset type under its name, replacing any previous entry
(Python dictionary assignment). -/
def dictWrite (all : String → Option DatasetType) (d : DatasetType) :
    String → Option DatasetType :=
  fun nm => if nm = d.name then some d else all nm

/-- Loop state of `buildIODatasets`: the lookup table `allDatasetTypes` and
the name sets `inputs` and `outputs`. -/
structure IOAcc where
  allDatasetTypes : String → Option DatasetType
  inputs : Finset String
  outputs : Finset String

/-- Embedding of the inner input loop of `buildIODatasets` (lines 142-145):
for each input dataset type, add its name to `inputs` and record the object
in the lookup table. -/
def addInputLoop : List DatasetType → IOAcc → IOAcc
  | [], acc => acc
  | d :: ds, acc =>
      addInputLoop ds
        { acc with
            inputs := insert d.name acc.inputs
            allDatasetTypes := dictWrite acc.allDatasetTypes d }

/-- Embedding of the inner output loop of `buildIODatasets` (lines 146-149):
for each output dataset type, add its name to `outputs` and record the
object in the lookup table. -/
def addOutputLoop : List DatasetType → IOAcc → IOAcc
  | [], acc => acc
  | d :: ds, acc =>
      addOutputLoop ds
        { acc with
            outputs := insert d.name acc.outputs
            allDatasetTypes := dictWrite acc.allDatasetTypes d }

/-- Embedding of the main loop of `buildIODatasets` (lines 138-149).  A task
whose class is unresolved makes the Python code call a method on None, which
raises an AttributeError; this is modelled by the `attributeError` outcome. -/
def buildLoop {Cfg : Type} : List (TaskDef Cfg) → IOAcc → Except PipeError IOAcc
  | [], acc => .ok acc
  | taskDef :: rest, acc =>
    match taskDef.taskClass with
    | none => .error (.attributeError taskDef.label)
    | some taksClass =>
      let taskInputs := taksClass.getInputDatasetTypes taskDef.config
      let taskOutputs := taksClass.getOutputDatasetTypes taskDef.config
      let acc1 := addInputLoop (taskInputs.map Prod.snd) acc
      let acc2 := addOutputLoop (taskOutputs.map Prod.snd) acc1
      buildLoop rest acc2

/-- Embedding of `GraphBuilder.buildIODatasets` (graphBuilder.py lines
118-156): collect all dataset types of all tasks, remove the output names
from the input names, and return both sets of DatasetType objects resolved
through the lookup table. -/
def GraphBuilder.buildIODatasets {Cfg : Type} (gb : GraphBuilder Cfg)
    (tasks : List (TaskDef Cfg)) :
    Except PipeError (Finset DatasetType × Finset DatasetType) :=
  match buildLoop tasks ⟨fun _ => none, ∅, ∅⟩ with
  | .error e => .error e
  | .ok acc =>
    let inputs := acc.inputs \ acc.outputs
    .ok (inputs.image (fun nm => (acc.allDatasetTypes nm).getD default),
         acc.outputs.image (fun nm => (acc.allDatasetTypes nm).getD default))

/-- Placeholder for the out-of-scope executable work-unit graph; the embedded
code never constructs a value of this type. -/
structure QuantumGraph where
  stub ::

/-- Embedding of `GraphBuilder._makeGraph` (graphBuilder.py lines 158-177):
the body assigns None to the graph variable and returns it. -/
def GraphBuilder._makeGraph {Cfg : Type} (tasks : List (TaskDef Cfg))
    (inputs outputs : Finset DatasetType) : Option QuantumGraph :=
  let graph : Option QuantumGraph := none
  graph

/-- Sequential exception-propagating map, modelling a Python list
comprehension whose element expression may raise. -/
def exceptMap {α β : Type} (f : α → Except PipeError β) : List α → Except PipeError (List β)
  | [] => .ok []
  | a :: rest =>
    match f a with
    | .error e => .error e
    | .ok b =>
      match exceptMap f rest with
      | .error e => .error e
      | .ok bs => .ok (b :: bs)

/-- Embedding of `GraphBuilder.makeGraph` (graphBuilder.py lines 92-116):
load every task class, build the input and output dataset sets, and hand
them to `_makeGraph`. -/
def GraphBuilder.makeGraph {Cfg : Type} (gb : GraphBuilder Cfg)
    (pipeline : List (TaskDef Cfg)) : Except PipeError (Option QuantumGraph) :=
  match exceptMap (fun taskDef => gb._loadTaskClass taskDef) pipeline with
  | .error e => .error e
  | .ok taskList =>
    match gb.buildIODatasets taskList with
    | .error e => .error e
    | .ok sets => .ok (GraphBuilder._makeGraph taskList sets.1 sets.2)

/-- Modelled from the spec: the per-task view used by the ordering engine of
the missing module pipeTools.py, namely the task label together with the
input and output dataset type names derived through the capability interface
of section 4.2.  For an unresolved class the name lists are empty; the
ordering functions never reach this case because class resolution runs
first. -/
structure TaskDecl where
  label : String
  inputs : List String
  outputs : List String
deriving DecidableEq, Repr

/-- Input dataset type names a task class derives from a task configuration. -/
def classInputNames {Cfg : Type} (c : TaskClass Cfg) (td : TaskDef Cfg) : List String :=
  (c.getInputDatasetTypes td.config).map (fun pr => pr.2.name)

/-- Output dataset type names a task class derives from a task configuration. -/
def classOutputNames {Cfg : Type} (c : TaskClass Cfg) (td : TaskDef Cfg) : List String :=
  (c.getOutputDatasetTypes td.config).map (fun pr => pr.2.name)

/-- The declaration view of a TaskDef whose class is already resolved. -/
def taskDeclOf {Cfg : Type} (td : TaskDef Cfg) : TaskDecl :=
  match td.taskClass with
  | some c => ⟨td.label, classInputNames c td, classOutputNames c td⟩
  | none => ⟨td.label, [], []⟩

/-- Modelled from the spec: task class resolution of section 4.1 as used by
the ordering engine of the missing module pipeTools.py.  A set class is used
directly; an unset class requires the injected factory, and a missing or
failing factory is surfaced as `missingTaskFactoryError` naming the label of
the offending task (sections 4.1 and 6). -/
def resolveTaskClass {Cfg : Type} (fac : Option (TaskFactory Cfg)) (td : TaskDef Cfg) :
    Except PipeError (TaskClass Cfg) :=
  match td.taskClass with
  | some c => .ok c
  | none =>
    match fac with
    | none => .error (.missingTaskFactory td.label)
    | some f =>
      match f.loadTaskClass td.taskName with
      | .ok pr => .ok pr.1
      | .error _ => .error (.missingTaskFactory td.label)

/-- Modelled from the spec: the resolution pass of section 4.2b of the
missing module pipeTools.py, turning a pipeline into the list of per-task
declaration views, failing if some class cannot be resolved. -/
def pipelineDecls {Cfg : Type} (fac : Option (TaskFactory Cfg))
    (pipeline : List (TaskDef Cfg)) : Except PipeError (List TaskDecl) :=
  exceptMap
    (fun td =>
      match resolveTaskClass fac td with
      | .error e => .error e
      | .ok c => .ok ⟨td.label, classInputNames c td, classOutputNames c td⟩)
    pipeline

/-- Lookup in the producer table, an association list from dataset type name
to the index and label of the producing task. -/
def lookupProducer : List (String × Nat × String) → String → Option (Nat × String)
  | [], _ => none
  | (nm, pr) :: rest, key => if key = nm then some pr else lookupProducer rest key

/-- Modelled from the spec: insertion of the output dataset type names of
the task with index `i` and label `lbl` into the producer table (section
4.2).  A name already produced by a distinct task raises
`duplicateOutputError` naming the dataset type name and both labels. -/
def addProducers (i : Nat) (lbl : String) :
    List String → List (String × Nat × String) → Except PipeError (List (String × Nat × String))
  | [], pm => .ok pm
  | nm :: rest, pm =>
    match lookupProducer pm nm with
    | some pr =>
      if pr.1 = i then addProducers i lbl rest pm
      else .error (.duplicateOutput nm pr.2 lbl)
    | none => addProducers i lbl rest ((nm, i, lbl) :: pm)

/-- Modelled from the spec: the first pass of section 4.2 over all tasks,
collecting the producer of every output dataset type name before any edge is
built, detecting duplicate producers regardless of declaration order. -/
def collectProducers (i : Nat) :
    List TaskDecl → List (String × Nat × String) → Except PipeError (List (String × Nat × String))
  | [], pm => .ok pm
  | tdc :: rest, pm =>
    match addProducers i tdc.label tdc.outputs pm with
    | .error e => .error e
    | .ok pmNew => collectProducers (i + 1) rest pmNew

/-- Modelled from the spec: the dependency edges into the consumer task of
index `i` (section 4.2): for each input dataset type name with a producer
distinct from the consumer, an edge from the producer index to `i`.  Names
produced by no task contribute no edge. -/
def consumerEdges (pm : List (String × Nat × String)) (i : Nat) (tdc : TaskDecl) :
    List (Nat × Nat) :=
  tdc.inputs.filterMap (fun nm =>
    match lookupProducer pm nm with
    | some pr => if pr.1 = i then none else some (pr.1, i)
    | none => none)

/-- Modelled from the spec: the edge set of the task dependency graph of
section 4.2, tasks being identified by their index in the original
pipeline. -/
def pipeEdges (pm : List (String × Nat × String)) (i : Nat) : List TaskDecl → List (Nat × Nat)
  | [] => []
  | tdc :: rest => consumerEdges pm i tdc ++ pipeEdges pm (i + 1) rest

/-- Membership view of the edge list, used to state graph properties. -/
@[reducible] def edgeRel (edges : List (Nat × Nat)) (a b : Nat) : Prop := (a, b) ∈ edges

/-- A task is ready when every producer feeding it has already been emitted:
this is exactly the zero in-degree condition of the residual graph of the
Kahn style sort of section 4.3. -/
def ready (edges : List (Nat × Nat)) (emitted : List Nat) (t : Nat) : Bool :=
  (edges.filter (fun e => e.2 == t)).all (fun e => emitted.contains e.1)

/-- Modelled from the spec: the Kahn style ordering loop of section 4.3
over task indices.  While tasks remain, the not yet emitted task of smallest
original index whose dependencies are all emitted is emitted next (the
remaining list is kept sorted in original order, so the first ready element
is the smallest); if no task is ready, the dependency graph has a cycle and
`pipelineDataCycleError` is raised.  The emitted list is accumulated newest
first and reversed at the end. -/
def kahn (edges : List (Nat × Nat)) (remaining emitted : List Nat) :
    Except PipeError (List Nat) :=
  if hrem : remaining = [] then .ok emitted.reverse
  else
    match hfil : remaining.filter (fun t => ready edges emitted t) with
    | [] => .error .pipelineDataCycle
    | t :: _ => kahn edges (remaining.erase t) (t :: emitted)
termination_by remaining.length
decreasing_by
  have ht : t ∈ remaining :=
    List.mem_of_mem_filter (hfil ▸ List.mem_cons_self t _)
  have h1 : (remaining.erase t).length = remaining.length - 1 :=
    List.length_erase_of_mem ht
  have h2 : 0 < remaining.length := List.length_pos_of_mem ht
  omega

/-- Modelled from the spec: `pipeTools.orderPipeline` (section 4.3).  The
pipeline is resolved, the producer table is collected, the edge set is
built, the Kahn loop orders the task indices, and the resulting index
order is mapped back to the original TaskDef entries. -/
def orderPipeline {Cfg : Type} (fac : Option (TaskFactory Cfg))
    (pipeline : List (TaskDef Cfg)) : Except PipeError (List (TaskDef Cfg)) :=
  match pipelineDecls fac pipeline with
  | .error e => .error e
  | .ok decls =>
    match collectProducers 0 decls [] with
    | .error e => .error e
    | .ok pm =>
      match kahn (pipeEdges pm 0 decls) (List.range pipeline.length) [] with
      | .error e => .error e
      | .ok ids => .ok (ids.filterMap (fun i => pipeline[i]?))

/-- Modelled from the spec: `pipeTools.isPipelineOrdered` (section 4.3).
The same resolution and producer validation as `orderPipeline`, then a read
only check that every dependency edge runs from an earlier task to a later
one; a merely wrong order yields false rather than an error. -/
def isPipelineOrdered {Cfg : Type} (fac : Option (TaskFactory Cfg))
    (pipeline : List (TaskDef Cfg)) : Except PipeError Bool :=
  match pipelineDecls fac pipeline with
  | .error e => .error e
  | .ok decls =>
    match collectProducers 0 decls [] with
    | .error e => .error e
    | .ok pm =>
      .ok ((pipeEdges pm 0 decls).all (fun e => decide (e.1 < e.2)))

/-- Duplicate freedom of a pipeline: no two distinct tasks declare the same
output dataset type name. -/
@[reducible] def DupFree (decls : List TaskDecl) : Prop :=
  List.Pairwise (fun s t => ∀ nm, nm ∈ s.outputs → nm ∉ t.outputs) decls

/-- The last dataset type of the given name written by the declaration
sequence, later writes shadowing earlier ones: this characterises the Python
dictionary `allDatasetTypes` after a sequence of assignments. -/
def lastNamed : List DatasetType → String → Option DatasetType
  | [], _ => none
  | d :: ds, nm => (lastNamed ds nm).or (if d.name = nm then some d else none)

/-- The sequence of DatasetType objects written into the lookup table of
`buildIODatasets`, in write order: for each task its inputs, then its
outputs. -/
def declsList {Cfg : Type} (tasks : List (TaskDef Cfg)) : List DatasetType :=
  tasks.flatMap (fun td =>
    match td.taskClass with
    | some c => (c.getInputDatasetTypes td.config).map Prod.snd ++
                (c.getOutputDatasetTypes td.config).map Prod.snd
    | none => [])

/-- A dataset type name is declared as an input by at least one task. -/
def inDeclared {Cfg : Type} (tasks : List (TaskDef Cfg)) (nm : String) : Prop :=
  ∃ td ∈ tasks, nm ∈ (taskDeclOf td).inputs

/-- A dataset type name is declared as an output by at least one task. -/
def outDeclared {Cfg : Type} (tasks : List (TaskDef Cfg)) (nm : String) : Prop :=
  ∃ td ∈ tasks, nm ∈ (taskDeclOf td).outputs

/-- Invariant of the reversed emission list of the Kahn loop: every emitted
task only depends on tasks emitted earlier, that is, later in the reversed
list. -/
def revTopo (edges : List (Nat × Nat)) : List Nat → Prop
  | [] => True
  | t :: rest => (∀ a, (a, t) ∈ edges → a ∈ rest) ∧ revTopo edges rest

/-- Concrete task fixture: a task over the trivial configuration whose class
derives the given input and output dataset type names. -/
def mkTask (lbl : String) (ins outs : List String) : TaskDef Unit :=
  { taskName := "ExampleSuperTask"
    config := ()
    taskClass := some
      ⟨fun _ => ins.map (fun nm => (nm, ⟨nm, ""⟩)),
       fun _ => outs.map (fun nm => (nm, ⟨nm, ""⟩))⟩
    label := lbl }

/-- Concrete task class fixture reading dataset A and writing dataset B. -/
def wTaskClassA : TaskClass Unit :=
  ⟨fun _ => [("input1", ⟨"A", ""⟩)], fun _ => [("output1", ⟨"B", ""⟩)]⟩

/-- Concrete factory fixture resolving every task name to `wTaskClassA`
under the canonical name pkg.Example. -/
def wFactory : TaskFactory Unit :=
  ⟨fun _ => .ok (wTaskClassA, "pkg.Example")⟩

/-- Concrete GraphBuilder fixture over `wFactory`. -/
def wGB : GraphBuilder Unit := ⟨wFactory⟩

/-- Concrete TaskDef fixture with a resolved class. -/
def wTdSet : TaskDef Unit := ⟨"Example", (), some wTaskClassA, "task1"⟩

/-- Concrete TaskDef fixture with an unresolved class. -/
def wTdUnset : TaskDef Unit := ⟨"Example", (), none, "task1"⟩

/-- The TaskDef produced by resolving `wTdUnset` through `wFactory`. -/
def wTdResolved : TaskDef Unit := ⟨"pkg.Example", (), some wTaskClassA, "task1"⟩

/-- Two task pipeline fixture in dependency order, from the repository
tests: task1 reads A and writes B, task2 reads B and writes C. -/
def chainPipe : List (TaskDef Unit) :=
  [mkTask "task1" ["A"] ["B"], mkTask "task2" ["B"] ["C"]]

/-- Diamond pipeline fixture from the repository tests, with the two
independent middle tasks declared as task3 before task2. -/
def diamondPipe : List (TaskDef Unit) :=
  [mkTask "task1" ["A"] ["B", "C"],
   mkTask "task3" ["C"] ["E"],
   mkTask "task2" ["B"] ["D"],
   mkTask "task4" ["D", "E"] ["F"]]

/-- Duplicate producer pipeline fixture from the repository tests: C is
written by both task2 and task3. -/
def dupPipe : List (TaskDef Unit) :=
  [mkTask "task1" ["A"] ["B"],
   mkTask "task2" ["B"] ["C"],
   mkTask "task3" ["A"] ["C"]]

/-- Cyclic pipeline fixture from the repository tests: the dataset
dependencies form the cycle A, B, C, D, A. -/
def cyclePipe : List (TaskDef Unit) :=
  [mkTask "task1" ["A"] ["B"],
   mkTask "task2" ["B"] ["C"],
   mkTask "task3" ["C"] ["D"],
   mkTask "task4" ["D"] ["A"]]

/-- Single task pipeline fixture reading A and writing B. -/
def singlePipe : List (TaskDef Unit) := [mkTask "task1" ["A"] ["B"]]

/-- C9: `_loadTaskClass` is pure and never changes the TaskDef it is given:
the embedding is a function, so the caller record is immutable by
construction, and the theorem makes the two contractual branches explicit.
When the task class is already set the input TaskDef is returned unchanged;
when it is unset and the factory resolves the name, the result is a copy of
the input with only `taskClass` and `taskName` replaced by the canonical
resolved values, the configuration and the label being those of the input. -/
theorem loadTaskClass_pure {Cfg : Type} (gb : GraphBuilder Cfg) (td : TaskDef Cfg) :
    (∀ c, td.taskClass = some c → gb._loadTaskClass td = .ok td) ∧
    (∀ tc tn, td.taskClass = none → gb.taskFactory.loadTaskClass td.taskName = .ok (tc, tn) →
      gb._loadTaskClass td =
        .ok { taskName := tn, config := td.config, taskClass := some tc, label := td.label }) := by
  constructor
  · intro c hc
    simp [GraphBuilder._loadTaskClass, hc]
  · intro tc tn hn hf
    simp [GraphBuilder._loadTaskClass, hn, hf]

/-- Witness for `loadTaskClass_pure` at the concrete fixtures: a resolved
TaskDef is returned unchanged and an unresolved one is returned as a copy
with the canonical class and name filled in. -/
theorem loadTaskClass_pure_witness :
    wGB._loadTaskClass wTdSet = .ok wTdSet ∧
    wGB._loadTaskClass wTdUnset =
      .ok { taskName := "pkg.Example", config := (), taskClass := some wTaskClassA,
            label := "task1" } :=
  ⟨(loadTaskClass_pure wGB wTdSet).1 wTaskClassA rfl,
   (loadTaskClass_pure wGB wTdUnset).2 wTaskClassA "pkg.Example" rfl rfl⟩

/-- C10: whenever class loading and dataset extraction succeed, `makeGraph`
returns the value of `_makeGraph`, which is unconditionally None: no
QuantumGraph is ever produced. -/
theorem makeGraph_returns_none {Cfg : Type} (gb : GraphBuilder Cfg)
    (pipeline taskList : List (TaskDef Cfg))
    (sets : Finset DatasetType × Finset DatasetType)
    (hload : exceptMap (fun taskDef => gb._loadTaskClass taskDef) pipeline = .ok taskList)
    (hbuild : gb.buildIODatasets taskList = .ok sets) :
    gb.makeGraph pipeline = .ok none := by
  simp [GraphBuilder.makeGraph, hload, hbuild, GraphBuilder._makeGraph]

/-- Witness for `makeGraph_returns_none` at a concrete one-task pipeline on
which loading and extraction both succeed. -/
theorem makeGraph_returns_none_witness :
    wGB.makeGraph [wTdSet] = .ok none :=
  makeGraph_returns_none wGB [wTdSet] [wTdSet]
    ({⟨"A", ""⟩}, {⟨"B", ""⟩}) (by rfl) (by rfl)

/-- Helper for C8: a resolved prefix of the task list is consumed without
error, and the first task with an unresolved class stops `buildIODatasets`
with an attribute access failure, before that task is resolved or read. -/
theorem buildLoop_unresolved {Cfg : Type} (td : TaskDef Cfg) (hn : td.taskClass = none) :
    ∀ (tasks1 tasks2 : List (TaskDef Cfg)) (acc : IOAcc),
      (∀ t ∈ tasks1, t.taskClass.isSome) →
      buildLoop (tasks1 ++ td :: tasks2) acc = .error (.attributeError td.label) := by
  intro tasks1
  induction tasks1 with
  | nil =>
    intro tasks2 acc _
    simp [buildLoop, hn]
  | cons hd tl ih =>
    intro tasks2 acc hres
    have hhd : hd.taskClass.isSome := hres hd (List.mem_cons_self hd tl)
    obtain ⟨c, hc⟩ := Option.isSome_iff_exists.mp hhd
    simp only [List.cons_append, buildLoop, hc]
    exact ih tasks2 _ (fun t ht => hres t (List.mem_cons_of_mem hd ht))

/-- Counterexample to C8: `buildIODatasets` does not delegate class
resolution to `_loadTaskClass`.  On a task list holding one unresolved
TaskDef whose name the factory resolves perfectly well, the class
resolution step of section 4.1 succeeds, while `buildIODatasets` fails with
an attribute access on the missing class rather than with any class
resolution failure. -/
theorem buildIODatasets_no_delegation_cex :
    wGB._loadTaskClass wTdUnset = .ok wTdResolved ∧
    wGB.buildIODatasets [wTdUnset] = .error (.attributeError "task1") :=
  ⟨rfl, rfl⟩

/-- C8 (amended): `buildIODatasets` never consults the task factory, so no
class resolution is delegated anywhere; the method reads `taskDef.taskClass`
directly, and on the first task in iteration order whose class is
unresolved it fails with an attribute access on the missing class, before
the dataset types of that task are read.  Class resolution instead happens
in `makeGraph`, which resolves every task through `_loadTaskClass` before
calling `buildIODatasets`. -/
theorem buildIODatasets_no_delegation {Cfg : Type} :
    (∀ (gb gb2 : GraphBuilder Cfg) (tasks : List (TaskDef Cfg)),
      gb.buildIODatasets tasks = gb2.buildIODatasets tasks) ∧
    (∀ (gb : GraphBuilder Cfg) (tasks1 : List (TaskDef Cfg)) (td : TaskDef Cfg)
        (tasks2 : List (TaskDef Cfg)),
      (∀ t ∈ tasks1, t.taskClass.isSome) → td.taskClass = none →
      gb.buildIODatasets (tasks1 ++ td :: tasks2) = .error (.attributeError td.label)) := by
  refine ⟨fun gb gb2 tasks => rfl, fun gb tasks1 td tasks2 hres hn => ?_⟩
  unfold GraphBuilder.buildIODatasets
  rw [buildLoop_unresolved td hn tasks1 tasks2 _ hres]

/-- Witness for `buildIODatasets_no_delegation`: with a resolved first task
and an unresolved second one, extraction fails with the attribute error of
the second task. -/
theorem buildIODatasets_no_delegation_witness :
    wGB.buildIODatasets [wTdSet, wTdUnset] = .error (.attributeError "task1") := by
  have h := (@buildIODatasets_no_delegation Unit).2 wGB [wTdSet] wTdUnset []
    (by intro t ht; simp only [List.mem_singleton] at ht; subst ht; rfl) rfl
  simpa using h

/-- A value returned by the lookup table characterisation carries the name
it is stored under. -/
theorem lastNamed_name : ∀ (l : List DatasetType) (nm : String) (d : DatasetType),
    lastNamed l nm = some d → d.name = nm := by
  intro l
  induction l with
  | nil => intro nm d h; simp [lastNamed] at h
  | cons x xs ih =>
    intro nm d h
    rw [lastNamed] at h
    cases hl : lastNamed xs nm with
    | some y =>
      rw [hl] at h
      have : y = d := by simpa [Option.or] using h
      exact this ▸ ih nm y hl
    | none =>
      rw [hl, Option.none_or] at h
      by_cases hx : x.name = nm
      · rw [if_pos hx] at h; cases h; exact hx
      · rw [if_neg hx] at h; cases h

/-- The lookup table characterisation holds a value for a name exactly when
some written dataset type carries that name. -/
theorem lastNamed_isSome : ∀ (l : List DatasetType) (nm : String),
    (lastNamed l nm).isSome = true ↔ ∃ d ∈ l, d.name = nm := by
  intro l
  induction l with
  | nil => intro nm; simp [lastNamed]
  | cons x xs ih =>
    intro nm
    rw [lastNamed]
    cases hl : lastNamed xs nm with
    | some y =>
      constructor
      · intro _
        obtain ⟨d, hd, hn⟩ := (ih nm).mp (by rw [hl]; rfl)
        exact ⟨d, List.mem_cons_of_mem x hd, hn⟩
      · intro _; rfl
    | none =>
      rw [Option.none_or]
      by_cases hx : x.name = nm
      · rw [if_pos hx]
        constructor
        · intro _; exact ⟨x, List.mem_cons_self x xs, hx⟩
        · intro _; rfl
      · rw [if_neg hx]
        constructor
        · intro h; cases h
        · rintro ⟨d, hd, hn⟩
          rcases List.mem_cons.mp hd with rfl | hd2
          · exact absurd hn hx
          · have := (ih nm).mpr ⟨d, hd2, hn⟩
            rw [hl] at this
            cases this

/-- Appending write sequences composes the lookup characterisation, the
later sequence shadowing the earlier one. -/
theorem lastNamed_append : ∀ (l1 l2 : List DatasetType) (nm : String),
    lastNamed (l1 ++ l2) nm = (lastNamed l2 nm).or (lastNamed l1 nm) := by
  intro l1 l2 nm
  induction l1 with
  | nil => simp [lastNamed, Option.or_none]
  | cons x xs ih =>
    simp only [List.cons_append, lastNamed, List.append_eq, ih, Option.or_assoc]

/-- The input loop leaves the output name set unchanged, adds exactly the
written names to the input name set, and updates the lookup table by the
write sequence. -/
theorem addInputLoop_spec : ∀ (ds : List DatasetType) (acc : IOAcc),
    (addInputLoop ds acc).outputs = acc.outputs ∧
    (∀ nm, nm ∈ (addInputLoop ds acc).inputs ↔
      (nm ∈ acc.inputs ∨ nm ∈ ds.map DatasetType.name)) ∧
    (∀ nm, (addInputLoop ds acc).allDatasetTypes nm =
      (lastNamed ds nm).or (acc.allDatasetTypes nm)) := by
  intro ds
  induction ds with
  | nil => intro acc; refine ⟨rfl, ?_, ?_⟩ <;> intro nm <;> simp [addInputLoop, lastNamed]
  | cons d ds ih =>
    intro acc
    obtain ⟨h1, h2, h3⟩ := ih
      { acc with
          inputs := insert d.name acc.inputs
          allDatasetTypes := dictWrite acc.allDatasetTypes d }
    refine ⟨h1, ?_, ?_⟩
    · intro nm
      rw [show addInputLoop (d :: ds) acc = addInputLoop ds
            { acc with
                inputs := insert d.name acc.inputs
                allDatasetTypes := dictWrite acc.allDatasetTypes d } from rfl,
          h2 nm]
      simp only [Finset.mem_insert, List.map_cons, List.mem_cons]
      tauto
    · intro nm
      rw [show addInputLoop (d :: ds) acc = addInputLoop ds
            { acc with
                inputs := insert d.name acc.inputs
                allDatasetTypes := dictWrite acc.allDatasetTypes d } from rfl,
          h3 nm, lastNamed]
      cases hl : lastNamed ds nm with
      | some y => rfl
      | none =>
        simp only [Option.none_or]
        unfold dictWrite
        by_cases hd : nm = d.name
        · subst hd; simp
        · rw [if_neg hd, if_neg (fun h => hd h.symm), Option.none_or]

/-- The output loop leaves the input name set unchanged, adds exactly the
written names to the output name set, and updates the lookup table by the
write sequence. -/
theorem addOutputLoop_spec : ∀ (ds : List DatasetType) (acc : IOAcc),
    (addOutputLoop ds acc).inputs = acc.inputs ∧
    (∀ nm, nm ∈ (addOutputLoop ds acc).outputs ↔
      (nm ∈ acc.outputs ∨ nm ∈ ds.map DatasetType.name)) ∧
    (∀ nm, (addOutputLoop ds acc).allDatasetTypes nm =
      (lastNamed ds nm).or (acc.allDatasetTypes nm)) := by
  intro ds
  induction ds with
  | nil => intro acc; refine ⟨rfl, ?_, ?_⟩ <;> intro nm <;> simp [addOutputLoop, lastNamed]
  | cons d ds ih =>
    intro acc
    obtain ⟨h1, h2, h3⟩ := ih
      { acc with
          outputs := insert d.name acc.outputs
          allDatasetTypes := dictWrite acc.allDatasetTypes d }
    refine ⟨h1, ?_, ?_⟩
    · intro nm
      rw [show addOutputLoop (d :: ds) acc = addOutputLoop ds
            { acc with
                outputs := insert d.name acc.outputs
                allDatasetTypes := dictWrite acc.allDatasetTypes d } from rfl,
          h2 nm]
      simp only [Finset.mem_insert, List.map_cons, List.mem_cons]
      tauto
    · intro nm
      rw [show addOutputLoop (d :: ds) acc = addOutputLoop ds
            { acc with
                outputs := insert d.name acc.outputs
                allDatasetTypes := dictWrite acc.allDatasetTypes d } from rfl,
          h3 nm, lastNamed]
      cases hl : lastNamed ds nm with
      | some y => rfl
      | none =>
        simp only [Option.none_or]
        unfold dictWrite
        by_cases hd : nm = d.name
        · subst hd; simp
        · rw [if_neg hd, if_neg (fun h => hd h.symm), Option.none_or]

/-- Splitting an input declaration over the head task. -/
theorem inDeclared_cons {Cfg : Type} (td : TaskDef Cfg) (rest : List (TaskDef Cfg)) (nm : String) :
    inDeclared (td :: rest) nm ↔ (nm ∈ (taskDeclOf td).inputs ∨ inDeclared rest nm) := by
  simp [inDeclared, List.mem_cons, or_and_right, exists_or]

/-- Splitting an output declaration over the head task. -/
theorem outDeclared_cons {Cfg : Type} (td : TaskDef Cfg) (rest : List (TaskDef Cfg)) (nm : String) :
    outDeclared (td :: rest) nm ↔ (nm ∈ (taskDeclOf td).outputs ∨ outDeclared rest nm) := by
  simp [outDeclared, List.mem_cons, or_and_right, exists_or]

/-- A declared dataset type name is the name of some member of the write
sequence. -/
theorem declared_mem_decls {Cfg : Type} (tasks : List (TaskDef Cfg)) (nm : String) :
    (inDeclared tasks nm ∨ outDeclared tasks nm) → ∃ x ∈ declsList tasks, x.name = nm := by
  rintro (⟨td, htd, hnm⟩ | ⟨td, htd, hnm⟩) <;>
    rcases hcc : td.taskClass with _ | c <;>
    simp [taskDeclOf, hcc, classInputNames, classOutputNames] at hnm
  · obtain ⟨nm1, d, hpr, hname⟩ := hnm
    refine ⟨d, List.mem_flatMap.mpr ⟨td, htd, ?_⟩, hname⟩
    rw [hcc]
    exact List.mem_append_left _ (List.mem_map.mpr ⟨(nm1, d), hpr, rfl⟩)
  · obtain ⟨nm1, d, hpr, hname⟩ := hnm
    refine ⟨d, List.mem_flatMap.mpr ⟨td, htd, ?_⟩, hname⟩
    rw [hcc]
    exact List.mem_append_right _ (List.mem_map.mpr ⟨(nm1, d), hpr, rfl⟩)

/-- The main loop of `buildIODatasets` succeeds on a fully resolved task
list, and its final state is characterised by the declaration view: the
lookup table holds the last write per name and the name sets hold exactly
the declared names. -/
theorem buildLoop_ok {Cfg : Type} : ∀ (tasks : List (TaskDef Cfg)) (acc : IOAcc),
    (∀ td ∈ tasks, td.taskClass.isSome) →
    ∃ acc2, buildLoop tasks acc = .ok acc2 ∧
      (∀ nm, acc2.allDatasetTypes nm =
        (lastNamed (declsList tasks) nm).or (acc.allDatasetTypes nm)) ∧
      (∀ nm, nm ∈ acc2.inputs ↔ (nm ∈ acc.inputs ∨ inDeclared tasks nm)) ∧
      (∀ nm, nm ∈ acc2.outputs ↔ (nm ∈ acc.outputs ∨ outDeclared tasks nm)) := by
  intro tasks
  induction tasks with
  | nil =>
    intro acc _
    exact ⟨acc, rfl, by intro nm; simp [declsList, lastNamed],
      by intro nm; simp [inDeclared], by intro nm; simp [outDeclared]⟩
  | cons td rest ih =>
    intro acc hres
    obtain ⟨c, hc⟩ := Option.isSome_iff_exists.mp (hres td (List.mem_cons_self td rest))
    have hstep : buildLoop (td :: rest) acc =
        buildLoop rest (addOutputLoop ((c.getOutputDatasetTypes td.config).map Prod.snd)
          (addInputLoop ((c.getInputDatasetTypes td.config).map Prod.snd) acc)) := by
      simp [buildLoop, hc]
    obtain ⟨accF, heq, hall, hin, hout⟩ :=
      ih (addOutputLoop ((c.getOutputDatasetTypes td.config).map Prod.snd)
          (addInputLoop ((c.getInputDatasetTypes td.config).map Prod.snd) acc))
        (fun t ht => hres t (List.mem_cons_of_mem td ht))
    obtain ⟨hi1, hi2, hi3⟩ :=
      addInputLoop_spec ((c.getInputDatasetTypes td.config).map Prod.snd) acc
    obtain ⟨ho1, ho2, ho3⟩ :=
      addOutputLoop_spec ((c.getOutputDatasetTypes td.config).map Prod.snd)
        (addInputLoop ((c.getInputDatasetTypes td.config).map Prod.snd) acc)
    have hdecl : declsList (td :: rest) =
        ((c.getInputDatasetTypes td.config).map Prod.snd ++
         (c.getOutputDatasetTypes td.config).map Prod.snd) ++ declsList rest := by
      simp [declsList, hc]
    have hinNames : (taskDeclOf td).inputs =
        ((c.getInputDatasetTypes td.config).map Prod.snd).map DatasetType.name := by
      simp [taskDeclOf, hc, classInputNames, List.map_map, Function.comp]
    have houtNames : (taskDeclOf td).outputs =
        ((c.getOutputDatasetTypes td.config).map Prod.snd).map DatasetType.name := by
      simp [taskDeclOf, hc, classOutputNames, List.map_map, Function.comp]
    refine ⟨accF, hstep ▸ heq, ?_, ?_, ?_⟩
    · intro nm
      rw [hall nm, ho3 nm, hi3 nm, hdecl, lastNamed_append, lastNamed_append]
      simp only [Option.or_assoc]
    · intro nm
      rw [hin nm, ho1, hi2 nm, inDeclared_cons, hinNames]
      tauto
    · intro nm
      rw [hout nm, ho2 nm, hi1, outDeclared_cons, houtNames]
      tauto

/-- C6: on a fully resolved task list, `buildIODatasets` returns the pair of
the input and output DatasetType sets, where the output set holds exactly
the names declared as an output by at least one task, the input set holds
exactly the names declared as an input by some task and as an output by
none, and the two name sets are disjoint: a name declared both ways is
classified only as an output. -/
theorem buildIODatasets_in_out {Cfg : Type} (gb : GraphBuilder Cfg)
    (tasks : List (TaskDef Cfg))
    (hres : ∀ td ∈ tasks, td.taskClass.isSome) :
    ∃ ins outs : Finset DatasetType, gb.buildIODatasets tasks = .ok (ins, outs) ∧
      (∀ nm, (∃ d ∈ outs, d.name = nm) ↔ outDeclared tasks nm) ∧
      (∀ nm, (∃ d ∈ ins, d.name = nm) ↔ (inDeclared tasks nm ∧ ¬ outDeclared tasks nm)) ∧
      (∀ d ∈ ins, ∀ e ∈ outs, d.name ≠ e.name) := by
  obtain ⟨acc2, heq, hall, hin, hout⟩ := buildLoop_ok tasks ⟨fun _ => none, ∅, ∅⟩ hres
  have hall2 : ∀ nm, acc2.allDatasetTypes nm = lastNamed (declsList tasks) nm := by
    intro nm; rw [hall nm]; exact Option.or_none
  have hin2 : ∀ nm, nm ∈ acc2.inputs ↔ inDeclared tasks nm := by
    intro nm; rw [hin nm]; simp
  have hout2 : ∀ nm, nm ∈ acc2.outputs ↔ outDeclared tasks nm := by
    intro nm; rw [hout nm]; simp
  have hsome : ∀ nm, (inDeclared tasks nm ∨ outDeclared tasks nm) →
      ∃ d, acc2.allDatasetTypes nm = some d ∧ d.name = nm := by
    intro nm hd
    have hmem := declared_mem_decls tasks nm hd
    obtain ⟨d, hd2⟩ :=
      Option.isSome_iff_exists.mp ((lastNamed_isSome (declsList tasks) nm).mpr hmem)
    exact ⟨d, by rw [hall2 nm]; exact hd2, lastNamed_name _ _ _ hd2⟩
  have hbuild : gb.buildIODatasets tasks =
      .ok ((acc2.inputs \ acc2.outputs).image
             (fun nm => (acc2.allDatasetTypes nm).getD default),
           acc2.outputs.image (fun nm => (acc2.allDatasetTypes nm).getD default)) := by
    unfold GraphBuilder.buildIODatasets
    rw [heq]
  refine ⟨_, _, hbuild, ?_, ?_, ?_⟩
  · intro nm
    constructor
    · rintro ⟨d, hd, hdn⟩
      obtain ⟨nm2, hnm2, hfnm2⟩ := Finset.mem_image.mp hd
      have hdecl : outDeclared tasks nm2 := (hout2 nm2).mp hnm2
      obtain ⟨d2, hd2, hd2n⟩ := hsome nm2 (Or.inr hdecl)
      have hdd : d = d2 := by rw [← hfnm2, hd2]; rfl
      have : nm2 = nm := by rw [← hdn, hdd, hd2n]
      exact this ▸ hdecl
    · intro hdecl
      obtain ⟨d2, hd2, hd2n⟩ := hsome nm (Or.inr hdecl)
      refine ⟨(acc2.allDatasetTypes nm).getD default,
        Finset.mem_image_of_mem _ ((hout2 nm).mpr hdecl), ?_⟩
      rw [hd2]
      exact hd2n
  · intro nm
    constructor
    · rintro ⟨d, hd, hdn⟩
      obtain ⟨nm2, hnm2, hfnm2⟩ := Finset.mem_image.mp hd
      obtain ⟨hnmIn, hnmOut⟩ := Finset.mem_sdiff.mp hnm2
      have hdecl : inDeclared tasks nm2 := (hin2 nm2).mp hnmIn
      obtain ⟨d2, hd2, hd2n⟩ := hsome nm2 (Or.inl hdecl)
      have hdd : d = d2 := by rw [← hfnm2, hd2]; rfl
      have hnmEq : nm2 = nm := by rw [← hdn, hdd, hd2n]
      subst hnmEq
      exact ⟨hdecl, fun hcon => hnmOut ((hout2 nm2).mpr hcon)⟩
    · rintro ⟨hdecl, hnot⟩
      obtain ⟨d2, hd2, hd2n⟩ := hsome nm (Or.inl hdecl)
      refine ⟨(acc2.allDatasetTypes nm).getD default,
        Finset.mem_image_of_mem _ (Finset.mem_sdiff.mpr
          ⟨(hin2 nm).mpr hdecl, fun hcon => hnot ((hout2 nm).mp hcon)⟩), ?_⟩
      rw [hd2]
      exact hd2n
  · intro d hd e he
    obtain ⟨nm2, hnm2, hfnm2⟩ := Finset.mem_image.mp hd
    obtain ⟨hnmIn, hnmOut⟩ := Finset.mem_sdiff.mp hnm2
    obtain ⟨d2, hd2, hd2n⟩ := hsome nm2 (Or.inl ((hin2 nm2).mp hnmIn))
    have hdn : d.name = nm2 := by rw [← hfnm2, hd2]; exact hd2n
    obtain ⟨nm3, hnm3, hfnm3⟩ := Finset.mem_image.mp he
    obtain ⟨d3, hd3, hd3n⟩ := hsome nm3 (Or.inr ((hout2 nm3).mp hnm3))
    have hen : e.name = nm3 := by rw [← hfnm3, hd3]; exact hd3n
    intro hcon
    rw [hdn, hen] at hcon
    exact hnmOut (hcon ▸ hnm3)

/-- Witness for `buildIODatasets_in_out` at the two task chain pipeline:
the hypothesis holds and the characterisation follows by applying the
theorem. -/
theorem buildIODatasets_in_out_witness :
    (∀ td ∈ chainPipe, td.taskClass.isSome) ∧
    (∃ ins outs : Finset DatasetType, wGB.buildIODatasets chainPipe = .ok (ins, outs) ∧
      (∀ nm, (∃ d ∈ outs, d.name = nm) ↔ outDeclared chainPipe nm) ∧
      (∀ nm, (∃ d ∈ ins, d.name = nm) ↔
        (inDeclared chainPipe nm ∧ ¬ outDeclared chainPipe nm)) ∧
      (∀ d ∈ ins, ∀ e ∈ outs, d.name ≠ e.name)) :=
  ⟨by decide, buildIODatasets_in_out wGB chainPipe (by decide)⟩

/-- C7: duplicate output declarations do not make `buildIODatasets` fail:
on any fully resolved task list, also one where two distinct tasks declare
the same output dataset type name, the call succeeds, each output name is
represented by a single set member, and the DatasetType object standing for
a name is the last one written for that name in iteration order (tasks in
order, inputs before outputs within a task): last write wins. -/
theorem buildIODatasets_lastWrite {Cfg : Type} (gb : GraphBuilder Cfg)
    (tasks : List (TaskDef Cfg))
    (hres : ∀ td ∈ tasks, td.taskClass.isSome)
    (hdupl : ∃ i j, ∃ (hi : i < tasks.length) (hj : j < tasks.length), i ≠ j ∧
      ∃ nm, nm ∈ (taskDeclOf (tasks.get ⟨i, hi⟩)).outputs ∧
            nm ∈ (taskDeclOf (tasks.get ⟨j, hj⟩)).outputs) :
    ∃ ins outs : Finset DatasetType, gb.buildIODatasets tasks = .ok (ins, outs) ∧
      (∀ d ∈ outs, lastNamed (declsList tasks) d.name = some d) ∧
      (∀ d ∈ outs, ∀ e ∈ outs, d.name = e.name → d = e) := by
  obtain ⟨acc2, heq, hall, hin, hout⟩ := buildLoop_ok tasks ⟨fun _ => none, ∅, ∅⟩ hres
  have hall2 : ∀ nm, acc2.allDatasetTypes nm = lastNamed (declsList tasks) nm := by
    intro nm; rw [hall nm]; exact Option.or_none
  have hout2 : ∀ nm, nm ∈ acc2.outputs ↔ outDeclared tasks nm := by
    intro nm; rw [hout nm]; simp
  have hsome : ∀ nm, outDeclared tasks nm →
      ∃ d, acc2.allDatasetTypes nm = some d ∧ d.name = nm := by
    intro nm hd
    have hmem := declared_mem_decls tasks nm (Or.inr hd)
    obtain ⟨d, hd2⟩ :=
      Option.isSome_iff_exists.mp ((lastNamed_isSome (declsList tasks) nm).mpr hmem)
    exact ⟨d, by rw [hall2 nm]; exact hd2, lastNamed_name _ _ _ hd2⟩
  have hbuild : gb.buildIODatasets tasks =
      .ok ((acc2.inputs \ acc2.outputs).image
             (fun nm => (acc2.allDatasetTypes nm).getD default),
           acc2.outputs.image (fun nm => (acc2.allDatasetTypes nm).getD default)) := by
    unfold GraphBuilder.buildIODatasets
    rw [heq]
  refine ⟨_, _, hbuild, ?_, ?_⟩
  · intro d hd
    obtain ⟨nm2, hnm2, hfnm2⟩ := Finset.mem_image.mp hd
    obtain ⟨d2, hd2, hd2n⟩ := hsome nm2 ((hout2 nm2).mp hnm2)
    have hdd : d = d2 := by rw [← hfnm2, hd2]; rfl
    rw [hdd, hd2n, ← hall2 nm2]
    exact hd2
  · intro d hd e he hde
    obtain ⟨nm2, hnm2, hfnm2⟩ := Finset.mem_image.mp hd
    obtain ⟨d2, hd2, hd2n⟩ := hsome nm2 ((hout2 nm2).mp hnm2)
    have hdd : d = d2 := by rw [← hfnm2, hd2]; rfl
    obtain ⟨nm3, hnm3, hfnm3⟩ := Finset.mem_image.mp he
    obtain ⟨d3, hd3, hd3n⟩ := hsome nm3 ((hout2 nm3).mp hnm3)
    have hee : e = d3 := by rw [← hfnm3, hd3]; rfl
    have : nm2 = nm3 := by rw [← hd2n, ← hd3n, ← hdd, ← hee, hde]
    subst this
    rw [hdd, hee]
    have := hd3.symm.trans hd2
    exact (Option.some.inj this).symm

/-- Witness for `buildIODatasets_lastWrite` at the duplicate producer
pipeline of the repository tests, where task2 and task3 both write C. -/
theorem buildIODatasets_lastWrite_witness :
    (∀ td ∈ dupPipe, td.taskClass.isSome) ∧
    (∃ ins outs : Finset DatasetType, wGB.buildIODatasets dupPipe = .ok (ins, outs) ∧
      (∀ d ∈ outs, lastNamed (declsList dupPipe) d.name = some d) ∧
      (∀ d ∈ outs, ∀ e ∈ outs, d.name = e.name → d = e)) :=
  ⟨by decide,
   buildIODatasets_lastWrite wGB dupPipe (by decide)
     ⟨1, 2, by decide, by decide, by decide, "C", by decide, by decide⟩⟩

/-- Unfolding of the Kahn loop on an empty remaining list. -/
theorem kahn_nil (edges : List (Nat × Nat)) (em : List Nat) :
    kahn edges [] em = .ok em.reverse := by
  rw [kahn]
  rfl

/-- Unfolding of the Kahn loop when tasks remain but none is ready: the
cycle error is raised. -/
theorem kahn_cycle (edges : List (Nat × Nat)) (rem em : List Nat)
    (hne : rem ≠ []) (hfil : rem.filter (fun t => ready edges em t) = []) :
    kahn edges rem em = .error .pipelineDataCycle := by
  rw [kahn, dif_neg hne]
  split
  · rfl
  · rename_i t rest heq
    rw [hfil] at heq
    cases heq

/-- Unfolding of the Kahn loop when some task is ready: the head of the
filtered remaining list is emitted. -/
theorem kahn_step (edges : List (Nat × Nat)) (rem em : List Nat) (t : Nat) (rest : List Nat)
    (hne : rem ≠ []) (hfil : rem.filter (fun s => ready edges em s) = t :: rest) :
    kahn edges rem em = kahn edges (rem.erase t) (t :: em) := by
  rw [kahn, dif_neg hne]
  split
  · rename_i heq
    rw [hfil] at heq
    cases heq
  · rename_i s rest2 heq
    rw [hfil] at heq
    cases heq
    rfl

/-- Readiness spells out as: every producer feeding the task was emitted. -/
theorem ready_iff (edges : List (Nat × Nat)) (emitted : List Nat) (t : Nat) :
    ready edges emitted t = true ↔ ∀ a, (a, t) ∈ edges → a ∈ emitted := by
  unfold ready
  rw [List.all_eq_true]
  constructor
  · intro h a ha
    have := h (a, t) (List.mem_filter.mpr ⟨ha, by simp⟩)
    exact List.elem_iff.mp this
  · intro h e he
    obtain ⟨he1, he2⟩ := List.mem_filter.mp he
    have h2 : e.2 = t := by simpa using he2
    have := h e.1 (by rw [← h2]; exact he1)
    exact List.elem_iff.mpr this

/-- In a weakly sorted list, the head of a filtering is minimal among the
elements satisfying the predicate. -/
theorem sorted_filter_head : ∀ (l : List Nat) (p : Nat → Bool) (t : Nat) (rest : List Nat),
    l.Sorted (· ≤ ·) → l.filter p = t :: rest → ∀ s ∈ l, p s = true → t ≤ s := by
  intro l
  induction l with
  | nil => intro p t rest _ hfil; cases hfil
  | cons x xs ih =>
    intro p t rest hsort hfil s hs hps
    have hsort2 : xs.Sorted (· ≤ ·) := hsort.of_cons
    have hle : ∀ y ∈ xs, x ≤ y := fun y hy => List.rel_of_sorted_cons hsort y hy
    by_cases hpx : p x
    · rw [List.filter_cons_of_pos hpx] at hfil
      have hx : x = t := (List.cons.inj hfil).1
      subst hx
      rcases List.mem_cons.mp hs with rfl | hs2
      · exact Nat.le_refl _
      · exact hle s hs2
    · rw [List.filter_cons_of_neg hpx] at hfil
      rcases List.mem_cons.mp hs with rfl | hs2
      · exact absurd hps hpx
      · exact ih p t rest hsort2 hfil s hs2 hps

/-- Bounded variant of the emission prefix property of the Kahn loop. -/
theorem kahn_prefix_bounded (edges : List (Nat × Nat)) :
    ∀ (n : Nat) (rem em l : List Nat), rem.length ≤ n → kahn edges rem em = .ok l →
      ∃ s, l = em.reverse ++ s := by
  intro n
  induction n with
  | zero =>
    intro rem em l hlen hok
    have : rem = [] := List.eq_nil_of_length_eq_zero (Nat.le_zero.mp hlen)
    subst this
    rw [kahn_nil] at hok
    cases hok
    exact ⟨[], (List.append_nil _).symm⟩
  | succ n ih =>
    intro rem em l hlen hok
    by_cases hne : rem = []
    · subst hne
      rw [kahn_nil] at hok
      cases hok
      exact ⟨[], (List.append_nil _).symm⟩
    · cases hfil : rem.filter (fun s => ready edges em s) with
      | nil => rw [kahn_cycle edges rem em hne hfil] at hok; cases hok
      | cons t rest =>
        rw [kahn_step edges rem em t rest hne hfil] at hok
        have ht : t ∈ rem := List.mem_of_mem_filter (hfil ▸ List.mem_cons_self t rest)
        have hlen2 : (rem.erase t).length ≤ n := by
          have h1 := List.length_erase_of_mem ht
          have h2 := List.length_pos_of_mem ht
          omega
        obtain ⟨s, hs⟩ := ih (rem.erase t) (t :: em) l hlen2 hok
        rw [List.reverse_cons] at hs
        refine ⟨t :: s, ?_⟩
        rw [hs, List.append_assoc]
        rfl

/-- The Kahn loop only ever appends to the already emitted prefix. -/
theorem kahn_prefix (edges : List (Nat × Nat)) (rem em l : List Nat)
    (hok : kahn edges rem em = .ok l) : ∃ s, l = em.reverse ++ s :=
  kahn_prefix_bounded edges rem.length rem em l (Nat.le_refl _) hok

/-- Bounded variant of the permutation property of the Kahn loop. -/
theorem kahn_perm_bounded (edges : List (Nat × Nat)) :
    ∀ (n : Nat) (rem em l : List Nat), rem.length ≤ n → kahn edges rem em = .ok l →
      l.Perm (em.reverse ++ rem) := by
  intro n
  induction n with
  | zero =>
    intro rem em l hlen hok
    have : rem = [] := List.eq_nil_of_length_eq_zero (Nat.le_zero.mp hlen)
    subst this
    rw [kahn_nil] at hok
    cases hok
    rw [List.append_nil]
  | succ n ih =>
    intro rem em l hlen hok
    by_cases hne : rem = []
    · subst hne
      rw [kahn_nil] at hok
      cases hok
      rw [List.append_nil]
    · cases hfil : rem.filter (fun s => ready edges em s) with
      | nil => rw [kahn_cycle edges rem em hne hfil] at hok; cases hok
      | cons t rest =>
        rw [kahn_step edges rem em t rest hne hfil] at hok
        have ht : t ∈ rem := List.mem_of_mem_filter (hfil ▸ List.mem_cons_self t rest)
        have hlen2 : (rem.erase t).length ≤ n := by
          have h1 := List.length_erase_of_mem ht
          have h2 := List.length_pos_of_mem ht
          omega
        have hp := ih (rem.erase t) (t :: em) l hlen2 hok
        have h1 : rem.Perm (t :: rem.erase t) := List.perm_cons_erase ht
        refine hp.trans ?_
        rw [List.reverse_cons, List.append_assoc]
        exact List.Perm.append_left em.reverse (List.singleton_append ▸ h1.symm)

/-- The Kahn loop emits a permutation of the emitted prefix and the
remaining tasks. -/
theorem kahn_perm (edges : List (Nat × Nat)) (rem em l : List Nat)
    (hok : kahn edges rem em = .ok l) : l.Perm (em.reverse ++ rem) :=
  kahn_perm_bounded edges rem.length rem em l (Nat.le_refl _) hok

/-- Bounded variant: the only error the Kahn loop raises is the cycle
error. -/
theorem kahn_error_bounded (edges : List (Nat × Nat)) :
    ∀ (n : Nat) (rem em : List Nat) (e : PipeError), rem.length ≤ n →
      kahn edges rem em = .error e → e = .pipelineDataCycle := by
  intro n
  induction n with
  | zero =>
    intro rem em e hlen hko
    have : rem = [] := List.eq_nil_of_length_eq_zero (Nat.le_zero.mp hlen)
    subst this
    rw [kahn_nil] at hko
    cases hko
  | succ n ih =>
    intro rem em e hlen hko
    by_cases hne : rem = []
    · subst hne; rw [kahn_nil] at hko; cases hko
    · cases hfil : rem.filter (fun s => ready edges em s) with
      | nil =>
        rw [kahn_cycle edges rem em hne hfil] at hko
        cases hko
        rfl
      | cons t rest =>
        rw [kahn_step edges rem em t rest hne hfil] at hko
        have ht : t ∈ rem := List.mem_of_mem_filter (hfil ▸ List.mem_cons_self t rest)
        have hlen2 : (rem.erase t).length ≤ n := by
          have h1 := List.length_erase_of_mem ht
          have h2 := List.length_pos_of_mem ht
          omega
        exact ih (rem.erase t) (t :: em) e hlen2 hko

/-- The only error the Kahn loop raises is the cycle error. -/
theorem kahn_error (edges : List (Nat × Nat)) (rem em : List Nat) (e : PipeError)
    (hko : kahn edges rem em = .error e) : e = .pipelineDataCycle :=
  kahn_error_bounded edges rem.length rem em e (Nat.le_refl _) hko

/-- Bounded variant of the invariant propagation: the emission list stays
reverse topological through the Kahn loop. -/
theorem kahn_revTopo_bounded (edges : List (Nat × Nat)) :
    ∀ (n : Nat) (rem em l : List Nat), rem.length ≤ n → revTopo edges em →
      kahn edges rem em = .ok l → revTopo edges l.reverse := by
  intro n
  induction n with
  | zero =>
    intro rem em l hlen hrev hok
    have : rem = [] := List.eq_nil_of_length_eq_zero (Nat.le_zero.mp hlen)
    subst this
    rw [kahn_nil] at hok
    cases hok
    rw [List.reverse_reverse]
    exact hrev
  | succ n ih =>
    intro rem em l hlen hrev hok
    by_cases hne : rem = []
    · subst hne
      rw [kahn_nil] at hok
      cases hok
      rw [List.reverse_reverse]
      exact hrev
    · cases hfil : rem.filter (fun s => ready edges em s) with
      | nil => rw [kahn_cycle edges rem em hne hfil] at hok; cases hok
      | cons t rest =>
        rw [kahn_step edges rem em t rest hne hfil] at hok
        have ht : t ∈ rem.filter (fun s => ready edges em s) :=
          hfil ▸ List.mem_cons_self t rest
        have hready : ready edges em t = true := (List.mem_filter.mp ht).2
        have htm : t ∈ rem := List.mem_of_mem_filter ht
        have hlen2 : (rem.erase t).length ≤ n := by
          have h1 := List.length_erase_of_mem htm
          have h2 := List.length_pos_of_mem htm
          omega
        exact ih (rem.erase t) (t :: em) l hlen2
          ⟨fun a ha => (ready_iff edges em t).mp hready a ha, hrev⟩ hok

/-- A run of the Kahn loop started with an empty emission list produces a
reverse topological emission order. -/
theorem kahn_revTopo (edges : List (Nat × Nat)) (rem l : List Nat)
    (hok : kahn edges rem [] = .ok l) : revTopo edges l.reverse :=
  kahn_revTopo_bounded edges rem.length rem [] l (Nat.le_refl _) trivial hok

/-- In a reverse topological list, producers of an element sit strictly
later in the list. -/
theorem revTopo_drop (edges : List (Nat × Nat)) :
    ∀ (em : List Nat), revTopo edges em →
      ∀ (j : Nat) (hj : j < em.length) (a : Nat),
        (a, em.get ⟨j, hj⟩) ∈ edges → a ∈ em.drop (j + 1) := by
  intro em
  induction em with
  | nil => intro _ j hj; exact absurd hj (Nat.not_lt_zero j)
  | cons t rest ih =>
    intro hrev j hj a ha
    cases j with
    | zero => simpa using hrev.1 a ha
    | succ j2 => exact ih hrev.2 j2 (Nat.lt_of_succ_lt_succ hj) a ha

/-- In a duplicate free reverse topological list, an edge always points
from a later position to an earlier one. -/
theorem revTopo_lt (edges : List (Nat × Nat)) (em : List Nat)
    (hrev : revTopo edges em) (hnd : em.Nodup) (i j : Nat)
    (hi : i < em.length) (hj : j < em.length)
    (he : (em.get ⟨i, hi⟩, em.get ⟨j, hj⟩) ∈ edges) : j < i := by
  have hmem := revTopo_drop edges em hrev j hj _ he
  obtain ⟨k, hget⟩ := List.mem_iff_get.mp hmem
  have hlend : (em.drop (j + 1)).length = em.length - (j + 1) := List.length_drop _ _
  have hk2 : (j + 1) + k.1 < em.length := by
    have := k.2
    omega
  have hdg : (em.drop (j + 1)).get k = em.get ⟨(j + 1) + k.1, hk2⟩ := by
    simp [List.get_eq_getElem, List.getElem_drop]
  rw [hdg] at hget
  have := (List.Nodup.getElem_inj_iff hnd).mp (by
    simpa [List.get_eq_getElem] using hget)
  omega

/-- In a duplicate free emission order whose reverse is reverse
topological, every edge runs from an earlier position to a later one. -/
theorem kahn_pos (edges : List (Nat × Nat)) (l : List Nat)
    (hrev : revTopo edges l.reverse) (hnd : l.Nodup) (i j : Nat)
    (hi : i < l.length) (hj : j < l.length)
    (he : (l.get ⟨i, hi⟩, l.get ⟨j, hj⟩) ∈ edges) : i < j := by
  have hi2 : l.length - 1 - i < l.reverse.length := by
    rw [List.length_reverse]; omega
  have hj2 : l.length - 1 - j < l.reverse.length := by
    rw [List.length_reverse]; omega
  have hgi : l.reverse.get ⟨l.length - 1 - i, hi2⟩ = l.get ⟨i, hi⟩ := by
    simp [List.get_eq_getElem, List.getElem_reverse]
    congr 1
    omega
  have hgj : l.reverse.get ⟨l.length - 1 - j, hj2⟩ = l.get ⟨j, hj⟩ := by
    simp [List.get_eq_getElem, List.getElem_reverse]
    congr 1
    omega
  have := revTopo_lt edges l.reverse hrev (List.nodup_reverse.mpr hnd)
    _ _ hi2 hj2 (by rw [hgi, hgj]; exact he)
  omega

/-- Producer insertion preserves existing table entries. -/
theorem addProducers_preserve (i : Nat) (lbl : String) :
    ∀ (outs : List String) (pm pm2 : List (String × Nat × String)),
      addProducers i lbl outs pm = .ok pm2 →
      ∀ nm pr, lookupProducer pm nm = some pr → lookupProducer pm2 nm = some pr := by
  intro outs
  induction outs with
  | nil =>
    intro pm pm2 hok nm pr hpr
    cases hok
    exact hpr
  | cons nm0 rest ih =>
    intro pm pm2 hok nm pr hpr
    rw [addProducers] at hok
    split at hok
    · rename_i pr0 hl
      split at hok
      · exact ih pm pm2 hok nm pr hpr
      · cases hok
    · rename_i hl
      refine ih ((nm0, i, lbl) :: pm) pm2 hok nm pr ?_
      rw [lookupProducer]
      by_cases hnm : nm = nm0
      · subst hnm
        rw [hpr] at hl
        cases hl
      · rw [if_neg hnm]
        exact hpr

/-- Every inserted output name ends up in the table, pointing at the
inserting task. -/
theorem addProducers_new (i : Nat) (lbl : String) :
    ∀ (outs : List String) (pm pm2 : List (String × Nat × String)),
      addProducers i lbl outs pm = .ok pm2 →
      ∀ nm, nm ∈ outs → ∃ lbl2, lookupProducer pm2 nm = some (i, lbl2) := by
  intro outs
  induction outs with
  | nil =>
    intro pm pm2 _ nm hnm
    cases hnm
  | cons nm0 rest ih =>
    intro pm pm2 hok nm hnm
    rw [addProducers] at hok
    split at hok
    · rename_i pr0 hl
      split at hok
      · rename_i hi
        rcases List.mem_cons.mp hnm with rfl | h2
        · refine ⟨pr0.2, addProducers_preserve i lbl rest pm pm2 hok nm _ ?_⟩
          rw [hl, ← hi]
        · exact ih pm pm2 hok nm h2
      · cases hok
    · rename_i hl
      rcases List.mem_cons.mp hnm with rfl | h2
      · refine ⟨lbl, addProducers_preserve i lbl rest _ pm2 hok nm _ ?_⟩
        rw [lookupProducer, if_pos rfl]
      · exact ih _ pm2 hok nm h2

/-- Entries after a producer insertion: either they were present before, or
they belong to the inserting task. -/
theorem addProducers_entries (i : Nat) (lbl : String) :
    ∀ (outs : List String) (pm pm2 : List (String × Nat × String)),
      addProducers i lbl outs pm = .ok pm2 →
      ∀ nm pr, lookupProducer pm2 nm = some pr →
        lookupProducer pm nm = some pr ∨ (pr = (i, lbl) ∧ nm ∈ outs) := by
  intro outs
  induction outs with
  | nil =>
    intro pm pm2 hok nm pr hpr
    cases hok
    exact Or.inl hpr
  | cons nm0 rest ih =>
    intro pm pm2 hok nm pr hpr
    rw [addProducers] at hok
    split at hok
    · rename_i pr0 hl
      split at hok
      · rcases ih pm pm2 hok nm pr hpr with h | ⟨h1, h2⟩
        · exact Or.inl h
        · exact Or.inr ⟨h1, List.mem_cons_of_mem nm0 h2⟩
      · cases hok
    · rename_i hl
      rcases ih _ pm2 hok nm pr hpr with h | ⟨h1, h2⟩
      · rw [lookupProducer] at h
        by_cases hnm : nm = nm0
        · rw [if_pos hnm] at h
          cases h
          exact Or.inr ⟨rfl, hnm ▸ List.mem_cons_self nm0 rest⟩
        · rw [if_neg hnm] at h
          exact Or.inl h
      · exact Or.inr ⟨h1, List.mem_cons_of_mem nm0 h2⟩

/-- Producer insertion succeeds when no inserted name is already produced
by a distinct task. -/
theorem addProducers_ok (i : Nat) (lbl : String) :
    ∀ (outs : List String) (pm : List (String × Nat × String)),
      (∀ nm ∈ outs, ∀ j lbl2, lookupProducer pm nm = some (j, lbl2) → j = i) →
      ∃ pm2, addProducers i lbl outs pm = .ok pm2 := by
  intro outs
  induction outs with
  | nil => intro pm _; exact ⟨pm, rfl⟩
  | cons nm0 rest ih =>
    intro pm hfresh
    rw [addProducers]
    split
    · rename_i pr0 hl
      have hi : pr0.1 = i :=
        hfresh nm0 (List.mem_cons_self nm0 rest) pr0.1 pr0.2 (by rw [hl])
      rw [if_pos hi]
      exact ih pm (fun nm hnm => hfresh nm (List.mem_cons_of_mem nm0 hnm))
    · rename_i hl
      refine ih ((nm0, i, lbl) :: pm) ?_
      intro nm hnm j lbl2 hlk
      rw [lookupProducer] at hlk
      by_cases hnm0 : nm = nm0
      · rw [if_pos hnm0] at hlk
        cases hlk
        rfl
      · rw [if_neg hnm0] at hlk
        exact hfresh nm (List.mem_cons_of_mem nm0 hnm) j lbl2 hlk

/-- The only error producer insertion raises is the duplicate output
error. -/
theorem addProducers_error (i : Nat) (lbl : String) :
    ∀ (outs : List String) (pm : List (String × Nat × String)) (e : PipeError),
      addProducers i lbl outs pm = .error e →
      ∃ nm l1 l2, e = .duplicateOutput nm l1 l2 := by
  intro outs
  induction outs with
  | nil => intro pm e h; cases h
  | cons nm0 rest ih =>
    intro pm e h
    rw [addProducers] at h
    split at h
    · rename_i pr0 hl
      split at h
      · exact ih pm e h
      · cases h
        exact ⟨nm0, pr0.2, lbl, rfl⟩
    · rename_i hl
      exact ih _ e h

/-- The producer collection pass preserves existing table entries. -/
theorem collectProducers_preserve :
    ∀ (rest : List TaskDecl) (i : Nat) (pm0 pm : List (String × Nat × String)),
      collectProducers i rest pm0 = .ok pm →
      ∀ nm pr, lookupProducer pm0 nm = some pr → lookupProducer pm nm = some pr := by
  intro rest
  induction rest with
  | nil =>
    intro i pm0 pm hok nm pr hpr
    cases hok
    exact hpr
  | cons tdc rest2 ih =>
    intro i pm0 pm hok nm pr hpr
    rw [collectProducers] at hok
    split at hok
    · cases hok
    · rename_i pmNew heq
      exact ih (i + 1) pmNew pm hok nm pr
        (addProducers_preserve i tdc.label tdc.outputs pm0 pmNew heq nm pr hpr)

/-- After a successful collection pass every output name of every processed
task is in the table, pointing at its producer. -/
theorem collectProducers_complete :
    ∀ (rest : List TaskDecl) (i : Nat) (pm0 pm : List (String × Nat × String)),
      collectProducers i rest pm0 = .ok pm →
      ∀ (k : Nat) (hk : k < rest.length) (nm : String),
        nm ∈ (rest.get ⟨k, hk⟩).outputs →
        ∃ lbl2, lookupProducer pm nm = some (i + k, lbl2) := by
  intro rest
  induction rest with
  | nil =>
    intro i pm0 pm _ k hk
    exact absurd hk (Nat.not_lt_zero k)
  | cons tdc rest2 ih =>
    intro i pm0 pm hok k hk nm hnm
    rw [collectProducers] at hok
    split at hok
    · cases hok
    · rename_i pmNew heq
      cases k with
      | zero =>
        obtain ⟨lbl2, hl⟩ := addProducers_new i tdc.label tdc.outputs pm0 pmNew heq nm hnm
        exact ⟨lbl2, collectProducers_preserve rest2 (i + 1) pmNew pm hok nm _ hl⟩
      | succ k2 =>
        obtain ⟨lbl2, hl⟩ := ih (i + 1) pmNew pm hok k2 (Nat.lt_of_succ_lt_succ hk) nm hnm
        refine ⟨lbl2, ?_⟩
        rw [show i + (k2 + 1) = (i + 1) + k2 by omega]
        exact hl

/-- Entries of a collected producer table either predate the pass or point
at a processed task whose outputs hold the name. -/
theorem collectProducers_entries :
    ∀ (rest : List TaskDecl) (i : Nat) (pm0 pm : List (String × Nat × String)),
      collectProducers i rest pm0 = .ok pm →
      ∀ nm j lbl, lookupProducer pm nm = some (j, lbl) →
        lookupProducer pm0 nm = some (j, lbl) ∨
        ∃ (k : Nat) (hk : k < rest.length), j = i + k ∧
          nm ∈ (rest.get ⟨k, hk⟩).outputs ∧ lbl = (rest.get ⟨k, hk⟩).label := by
  intro rest
  induction rest with
  | nil =>
    intro i pm0 pm hok nm j lbl hlk
    cases hok
    exact Or.inl hlk
  | cons tdc rest2 ih =>
    intro i pm0 pm hok nm j lbl hlk
    rw [collectProducers] at hok
    split at hok
    · cases hok
    · rename_i pmNew heq
      rcases ih (i + 1) pmNew pm hok nm j lbl hlk with h | ⟨k, hk, h1, h2, h3⟩
      · rcases addProducers_entries i tdc.label tdc.outputs pm0 pmNew heq nm (j, lbl) h with
          h0 | ⟨hpr, hmem⟩
        · exact Or.inl h0
        · have hj : j = i := congrArg Prod.fst hpr
          have hlbl : lbl = tdc.label := congrArg Prod.snd hpr
          exact Or.inr ⟨0, Nat.succ_pos _, by omega, hmem, hlbl⟩
      · exact Or.inr ⟨k + 1, Nat.succ_lt_succ hk, by omega, h2, h3⟩

/-- The collection pass succeeds on a duplicate free task list whose names
are absent from the starting table. -/
theorem collectProducers_ok :
    ∀ (rest : List TaskDecl) (i : Nat) (pm0 : List (String × Nat × String)),
      (∀ (k : Nat) (hk : k < rest.length) (nm : String),
        nm ∈ (rest.get ⟨k, hk⟩).outputs → lookupProducer pm0 nm = none) →
      List.Pairwise (fun s t => ∀ nm, nm ∈ s.outputs → nm ∉ t.outputs) rest →
      ∃ pm, collectProducers i rest pm0 = .ok pm := by
  intro rest
  induction rest with
  | nil => intro i pm0 _ _; exact ⟨pm0, rfl⟩
  | cons tdc rest2 ih =>
    intro i pm0 hfresh hpair
    obtain ⟨pm1, hpm1⟩ := addProducers_ok i tdc.label tdc.outputs pm0
      (fun nm hnm j lbl2 hlk => by
        rw [hfresh 0 (Nat.succ_pos _) nm hnm] at hlk
        cases hlk)
    have hfresh2 : ∀ (k : Nat) (hk : k < rest2.length) (nm : String),
        nm ∈ (rest2.get ⟨k, hk⟩).outputs → lookupProducer pm1 nm = none := by
      intro k hk nm hnm
      cases hlk : lookupProducer pm1 nm with
      | none => rfl
      | some pr =>
        rcases addProducers_entries i tdc.label tdc.outputs pm0 pm1 hpm1 nm pr hlk with
          h0 | ⟨hpr, hmem⟩
        · rw [hfresh (k + 1) (Nat.succ_lt_succ hk) nm hnm] at h0
          cases h0
        · exact absurd hnm
            ((List.pairwise_cons.mp hpair).1 _ (List.get_mem rest2 _ _) nm hmem)
    rw [collectProducers, hpm1]
    exact ih (i + 1) pm1 hfresh2 (List.pairwise_cons.mp hpair).2

/-- The only error the collection pass raises is the duplicate output
error. -/
theorem collectProducers_error :
    ∀ (rest : List TaskDecl) (i : Nat) (pm0 : List (String × Nat × String)) (e : PipeError),
      collectProducers i rest pm0 = .error e → ∃ nm l1 l2, e = .duplicateOutput nm l1 l2 := by
  intro rest
  induction rest with
  | nil => intro i pm0 e h; cases h
  | cons tdc rest2 ih =>
    intro i pm0 e h
    rw [collectProducers] at h
    split at h
    · rename_i e2 heq
      cases h
      exact addProducers_error i tdc.label tdc.outputs pm0 _ heq
    · rename_i pmNew heq
      exact ih (i + 1) pmNew e h

/-- Membership in the edge list of one consumer task. -/
theorem mem_consumerEdges (pm : List (String × Nat × String)) (i : Nat) (tdc : TaskDecl)
    (a b : Nat) :
    (a, b) ∈ consumerEdges pm i tdc ↔
      (b = i ∧ ∃ nm ∈ tdc.inputs, ∃ lbl, lookupProducer pm nm = some (a, lbl) ∧ a ≠ i) := by
  unfold consumerEdges
  rw [List.mem_filterMap]
  constructor
  · rintro ⟨nm, hnm, hf⟩
    split at hf
    · rename_i pr hlk
      split at hf
      · cases hf
      · rename_i hpi
        have h1 : pr.1 = a := congrArg Prod.fst (Option.some.inj hf)
        have h2 : i = b := congrArg Prod.snd (Option.some.inj hf)
        subst h2
        refine ⟨rfl, nm, hnm, pr.2, ?_, fun hc => hpi (h1.trans hc)⟩
        rw [← h1]
        exact hlk
    · cases hf
  · rintro ⟨rfl, nm, hnm, lbl, hlk, hai⟩
    refine ⟨nm, hnm, ?_⟩
    rw [hlk]
    simp [hai]

/-- Membership in the full edge list: an edge targets a consumer position
in the declaration list and stems from its input names. -/
theorem mem_pipeEdges (pm : List (String × Nat × String)) :
    ∀ (rest : List TaskDecl) (i a b : Nat),
      (a, b) ∈ pipeEdges pm i rest ↔
        ∃ (k : Nat) (hk : k < rest.length), b = i + k ∧
          (a, b) ∈ consumerEdges pm b (rest.get ⟨k, hk⟩) := by
  intro rest
  induction rest with
  | nil =>
    intro i a b
    constructor
    · intro h; cases h
    · rintro ⟨k, hk, -, -⟩; exact absurd hk (Nat.not_lt_zero k)
  | cons tdc rest2 ih =>
    intro i a b
    rw [pipeEdges, List.mem_append]
    constructor
    · rintro (h1 | h2)
      · have hb : b = i := ((mem_consumerEdges pm i tdc a b).mp h1).1
        exact ⟨0, Nat.succ_pos _, by omega, hb ▸ h1⟩
      · obtain ⟨k, hk, h1, h2⟩ := (ih (i + 1) a b).mp h2
        exact ⟨k + 1, Nat.succ_lt_succ hk, by omega, h2⟩
    · rintro ⟨k, hk, hb, hc⟩
      cases k with
      | zero =>
        have hb2 : b = i := by omega
        subst hb2
        exact Or.inl hc
      | succ k2 =>
        refine Or.inr ((ih (i + 1) a b).mpr ⟨k2, Nat.lt_of_succ_lt_succ hk, by omega, hc⟩)

/-- Both endpoints of a dependency edge are valid task positions when the
producer table stems from a successful collection pass over the same
declaration list. -/
theorem pipeEdges_valid (decls : List TaskDecl) (pm : List (String × Nat × String))
    (hcol : collectProducers 0 decls [] = .ok pm) (a b : Nat)
    (h : (a, b) ∈ pipeEdges pm 0 decls) : a < decls.length ∧ b < decls.length := by
  obtain ⟨k, hk, hb, hc⟩ := (mem_pipeEdges pm decls 0 a b).mp h
  obtain ⟨-, nm, hnm, lbl, hlk, -⟩ := (mem_consumerEdges pm b _ a b).mp hc
  rcases collectProducers_entries decls 0 [] pm hcol nm a lbl hlk with h0 | ⟨k2, hk2, h1, -, -⟩
  · cases h0
  · exact ⟨by omega, by omega⟩

/-- On a pipeline whose classes are all resolved, the resolution pass
succeeds and produces exactly the declaration views. -/
theorem pipelineDecls_resolved {Cfg : Type} (fac : Option (TaskFactory Cfg)) :
    ∀ (p : List (TaskDef Cfg)), (∀ td ∈ p, td.taskClass.isSome) →
      pipelineDecls fac p = .ok (p.map taskDeclOf) := by
  intro p
  induction p with
  | nil => intro _; rfl
  | cons td rest ih =>
    intro hres
    obtain ⟨c, hc⟩ := Option.isSome_iff_exists.mp (hres td (List.mem_cons_self td rest))
    have hstep := ih (fun t ht => hres t (List.mem_cons_of_mem td ht))
    have htd : taskDeclOf td = ⟨td.label, classInputNames c td, classOutputNames c td⟩ := by
      simp only [taskDeclOf, hc]
    have hfe : resolveTaskClass fac td = .ok c := by
      rw [resolveTaskClass.eq_def, hc]
    rw [pipelineDecls] at hstep
    rw [pipelineDecls, exceptMap]
    simp only [hfe, hstep, List.map_cons, htd]

/-- A successful exception propagating map preserves the length. -/
theorem exceptMap_ok_length {α β : Type} (f : α → Except PipeError β) :
    ∀ (l : List α) (bs : List β), exceptMap f l = .ok bs → bs.length = l.length := by
  intro l
  induction l with
  | nil => intro bs h; cases h; rfl
  | cons a rest ih =>
    intro bs h
    rw [exceptMap] at h
    split at h
    · cases h
    · rename_i b heq
      split at h
      · cases h
      · rename_i bs2 heq2
        cases h
        simp [ih bs2 heq2]

/-- Index lookup over a list of valid positions keeps the length. -/
theorem filterMap_getElem_length {Cfg : Type} (p : List (TaskDef Cfg)) :
    ∀ (ids : List Nat), (∀ i ∈ ids, i < p.length) →
      (ids.filterMap (fun i => p[i]?)).length = ids.length := by
  intro ids
  induction ids with
  | nil => intro _; rfl
  | cons i rest ih =>
    intro hv
    have hi : i < p.length := hv i (List.mem_cons_self i rest)
    rw [List.filterMap_cons, List.getElem?_eq_getElem hi]
    simp only [List.length_cons]
    rw [ih (fun j hj => hv j (List.mem_cons_of_mem i hj))]

/-- Index lookup over the full position range reconstructs the list. -/
theorem filterMap_getElem_range {Cfg : Type} (p : List (TaskDef Cfg)) :
    (List.range p.length).filterMap (fun i => p[i]?) = p := by
  induction p using List.reverseRecOn with
  | nil => rfl
  | append_singleton rest td ih =>
    rw [List.length_append, List.length_singleton, List.range_succ, List.filterMap_append]
    have h1 : (List.range rest.length).filterMap
        (fun i => (rest ++ [td])[i]?) =
        (List.range rest.length).filterMap (fun i => rest[i]?) := by
      apply List.filterMap_congr
      intro i hi
      have hlt : i < rest.length := List.mem_range.mp hi
      rw [List.getElem?_append_left hlt]
    rw [h1, ih]
    have h2 : ([rest.length].filterMap fun i => (rest ++ [td])[i]?) = [td] := by
      simp
    rw [h2]

/-- A nonempty finite set of tasks in which every task has a producer inside
the set yields a dependency cycle. -/
theorem cycle_of_no_source (edges : List (Nat × Nat)) (S : List Nat) (hne : S ≠ [])
    (hpred : ∀ t ∈ S, ∃ a ∈ S, (a, t) ∈ edges) :
    ∃ x, Relation.TransGen (edgeRel edges) x x := by
  obtain ⟨t0, ht0⟩ := List.exists_mem_of_ne_nil S hne
  classical
  let g : Nat → {x // x ∈ S} := fun n =>
    Nat.rec ⟨t0, ht0⟩
      (fun _ prev =>
        ⟨(hpred prev.1 prev.2).choose, (hpred prev.1 prev.2).choose_spec.1⟩) n
  have hstep : ∀ n, edgeRel edges (g (n + 1)).1 (g n).1 := by
    intro n
    exact (hpred (g n).1 (g n).2).choose_spec.2
  have hchain : ∀ d k, Relation.TransGen (edgeRel edges) (g (k + d + 1)).1 (g k).1 := by
    intro d
    induction d with
    | zero => intro k; exact Relation.TransGen.single (hstep k)
    | succ d2 ih =>
      intro k
      have h1 : edgeRel edges (g (k + (d2 + 1) + 1)).1 (g (k + d2 + 1)).1 := by
        have := hstep (k + d2 + 1)
        have harith : k + d2 + 1 + 1 = k + (d2 + 1) + 1 := by omega
        rw [harith] at this
        exact this
      exact Relation.TransGen.head h1 (ih k)
  have hmaps : ∀ n ∈ Finset.range (S.toFinset.card + 1), (g n).1 ∈ S.toFinset := by
    intro n _
    exact List.mem_toFinset.mpr (g n).2
  have hcard : S.toFinset.card < (Finset.range (S.toFinset.card + 1)).card := by
    rw [Finset.card_range]
    omega
  obtain ⟨x, hx, y, hy, hxy, hgeq⟩ :=
    Finset.exists_ne_map_eq_of_card_lt_of_maps_to hcard hmaps
  rcases Nat.lt_or_ge x y with hlt | hge
  · refine ⟨(g x).1, ?_⟩
    have harith : y = x + (y - x - 1) + 1 := by omega
    have := hchain (y - x - 1) x
    rw [← harith] at this
    rw [← hgeq] at this
    exact this
  · have hlt2 : y < x := Nat.lt_of_le_of_ne hge (fun h => hxy h.symm)
    refine ⟨(g y).1, ?_⟩
    have harith : x = y + (x - y - 1) + 1 := by omega
    have := hchain (x - y - 1) y
    rw [← harith] at this
    rw [hgeq] at this
    exact this

/-- Bounded variant: on an acyclic dependency graph the Kahn loop never
raises the cycle error, provided every producer of a remaining task was
either emitted or is itself remaining. -/
theorem kahn_ok_of_acyclic_bounded (edges : List (Nat × Nat))
    (hacyc : ∀ x, ¬ Relation.TransGen (edgeRel edges) x x) :
    ∀ (n : Nat) (rem em : List Nat), rem.length ≤ n →
      (∀ a b, (a, b) ∈ edges → b ∈ rem → (a ∈ em ∨ a ∈ rem)) →
      ∃ l, kahn edges rem em = .ok l := by
  intro n
  induction n with
  | zero =>
    intro rem em hlen _
    have : rem = [] := List.eq_nil_of_length_eq_zero (Nat.le_zero.mp hlen)
    subst this
    exact ⟨em.reverse, kahn_nil edges em⟩
  | succ n ih =>
    intro rem em hlen hclosed
    by_cases hne : rem = []
    · subst hne
      exact ⟨em.reverse, kahn_nil edges em⟩
    · cases hfil : rem.filter (fun s => ready edges em s) with
      | nil =>
        exfalso
        have hnr : ∀ t ∈ rem, ¬ ready edges em t = true := by
          intro t ht
          have := List.filter_eq_nil_iff.mp hfil
          exact fun hr => by simpa [hr] using this t ht
        have hpred : ∀ t ∈ rem, ∃ a ∈ rem, (a, t) ∈ edges := by
          intro t ht
          have h1 : ¬ ∀ a, (a, t) ∈ edges → a ∈ em :=
            fun hall => hnr t ht ((ready_iff edges em t).mpr hall)
          push_neg at h1
          obtain ⟨a, ha, hnotem⟩ := h1
          rcases hclosed a t ha ht with hem | hrem
          · exact absurd hem hnotem
          · exact ⟨a, hrem, ha⟩
        obtain ⟨x, hx⟩ := cycle_of_no_source edges rem hne hpred
        exact hacyc x hx
      | cons t rest =>
        have ht : t ∈ rem := List.mem_of_mem_filter (hfil ▸ List.mem_cons_self t rest)
        have hlen2 : (rem.erase t).length ≤ n := by
          have h1 := List.length_erase_of_mem ht
          have h2 := List.length_pos_of_mem ht
          omega
        have hclosed2 : ∀ a b, (a, b) ∈ edges → b ∈ rem.erase t →
            (a ∈ t :: em ∨ a ∈ rem.erase t) := by
          intro a b hab hb
          rcases hclosed a b hab (List.mem_of_mem_erase hb) with hem | hrem
          · exact Or.inl (List.mem_cons_of_mem t hem)
          · by_cases hat : a = t
            · exact Or.inl (hat ▸ List.mem_cons_self t em)
            · exact Or.inr ((List.mem_erase_of_ne hat).mpr hrem)
        obtain ⟨l, hl⟩ := ih (rem.erase t) (t :: em) hlen2 hclosed2
        exact ⟨l, (kahn_step edges rem em t rest hne hfil).trans hl⟩

/-- On an acyclic dependency graph whose edges stay within the remaining
tasks, the Kahn loop succeeds. -/
theorem kahn_ok_of_acyclic (edges : List (Nat × Nat))
    (hacyc : ∀ x, ¬ Relation.TransGen (edgeRel edges) x x)
    (rem : List Nat) (hclosed : ∀ a b, (a, b) ∈ edges → b ∈ rem → a ∈ rem) :
    ∃ l, kahn edges rem [] = .ok l :=
  kahn_ok_of_acyclic_bounded edges hacyc rem.length rem [] (Nat.le_refl _)
    (fun a b hab hb => Or.inr (hclosed a b hab hb))

/-- C2: the tie break of the Kahn style sort is stability against the
original order.  At any step, with the remaining tasks kept sorted by their
original pipeline position, the task emitted next is ready and is the one
of smallest original index among all not yet emitted tasks whose
dependencies are already satisfied.  The witness instantiates the step at
the diamond pipeline of the repository tests, where the independent middle
tasks task3 and task2 are both ready and the earlier declared task3 is
emitted first, preserving the declaration order of the two. -/
theorem kahn_emits_min (edges : List (Nat × Nat)) (rem em : List Nat) (t : Nat)
    (rest : List Nat) (hsort : rem.Sorted (· ≤ ·))
    (hfil : rem.filter (fun s => ready edges em s) = t :: rest) :
    t ∈ rem ∧ ready edges em t = true ∧
    (∀ s ∈ rem, ready edges em s = true → t ≤ s) ∧
    kahn edges rem em = kahn edges (rem.erase t) (t :: em) := by
  have htf : t ∈ rem.filter (fun s => ready edges em s) := hfil ▸ List.mem_cons_self t rest
  have htm : t ∈ rem := List.mem_of_mem_filter htf
  have hne : rem ≠ [] := List.ne_nil_of_mem htm
  exact ⟨htm, (List.mem_filter.mp htf).2,
    sorted_filter_head rem _ t rest hsort hfil,
    kahn_step edges rem em t rest hne hfil⟩

/-- Witness for `kahn_emits_min` at the mid run state of the diamond
pipeline declared as task1, task3, task2, task4: after task1 is emitted,
task3 and task2 (original indices 1 and 2) are both ready and index 1,
that is task3, is emitted next. -/
theorem kahn_emits_min_witness :
    (collectProducers 0 (diamondPipe.map taskDeclOf) [] =
      .ok [("F", 3, "task4"), ("D", 2, "task2"), ("E", 1, "task3"),
           ("C", 0, "task1"), ("B", 0, "task1")]) ∧
    ((1 : Nat) ∈ [1, 2, 3] ∧
     ready (pipeEdges [("F", 3, "task4"), ("D", 2, "task2"), ("E", 1, "task3"),
       ("C", 0, "task1"), ("B", 0, "task1")] 0 (diamondPipe.map taskDeclOf)) [0] 1 = true ∧
     (∀ s ∈ [1, 2, 3],
       ready (pipeEdges [("F", 3, "task4"), ("D", 2, "task2"), ("E", 1, "task3"),
         ("C", 0, "task1"), ("B", 0, "task1")] 0 (diamondPipe.map taskDeclOf)) [0] s = true →
       1 ≤ s) ∧
     kahn (pipeEdges [("F", 3, "task4"), ("D", 2, "task2"), ("E", 1, "task3"),
         ("C", 0, "task1"), ("B", 0, "task1")] 0 (diamondPipe.map taskDeclOf)) [1, 2, 3] [0] =
       kahn (pipeEdges [("F", 3, "task4"), ("D", 2, "task2"), ("E", 1, "task3"),
         ("C", 0, "task1"), ("B", 0, "task1")] 0 (diamondPipe.map taskDeclOf))
         ([1, 2, 3].erase 1) (1 :: [0])) :=
  ⟨rfl, kahn_emits_min _ [1, 2, 3] [0] 1 [2] (by decide) (by decide)⟩

/-- A successful Kahn run refutes any dependency cycle among its input
tasks: positions in the emission order grow strictly along edges, hence
along every nonempty dependency path. -/
theorem kahn_no_cycle (edges : List (Nat × Nat)) (rem ids : List Nat)
    (hok : kahn edges rem [] = .ok ids) (hndrem : rem.Nodup)
    (hvalid : ∀ a b, (a, b) ∈ edges → a ∈ rem ∧ b ∈ rem) :
    ∀ x, ¬ Relation.TransGen (edgeRel edges) x x := by
  intro x hx
  have hperm : ids.Perm rem := by
    have := kahn_perm edges rem [] ids hok
    simpa using this
  have hrev := kahn_revTopo edges rem ids hok
  have hnd : ids.Nodup := hperm.nodup_iff.mpr hndrem
  have hmono : ∀ u v, edgeRel edges u v → ids.indexOf u < ids.indexOf v := by
    intro u v huv
    have hu : u ∈ ids := hperm.mem_iff.mpr (hvalid u v huv).1
    have hv : v ∈ ids := hperm.mem_iff.mpr (hvalid u v huv).2
    have hiu : ids.indexOf u < ids.length := List.indexOf_lt_length.mpr hu
    have hiv : ids.indexOf v < ids.length := List.indexOf_lt_length.mpr hv
    refine kahn_pos edges ids hrev hnd _ _ hiu hiv ?_
    rw [List.indexOf_get hiu, List.indexOf_get hiv]
    exact huv
  have hmonoTG : ∀ u v, Relation.TransGen (edgeRel edges) u v →
      ids.indexOf u < ids.indexOf v := by
    intro u v h
    induction h with
    | single h1 => exact hmono _ _ h1
    | tail h1 h2 ih => exact ih.trans (hmono _ _ h2)
  exact absurd (hmonoTG x x hx) (Nat.lt_irrefl _)

/-- C1: on an acyclic, duplicate free, fully resolved pipeline,
`orderPipeline` succeeds and returns a permutation of the same task
sequence.  The Kahn loop emits the list `ids` of original task positions in
execution order, and the returned pipeline reads the tasks off in that
order; for every dependency edge, that is whenever an output dataset type
name of the task at original position `a` is an input dataset type name of
the task at a different original position `b`, the position of the producer
`a` in the result is strictly smaller than the position of the consumer
`b`. -/
theorem orderPipeline_topo {Cfg : Type} (fac : Option (TaskFactory Cfg))
    (p : List (TaskDef Cfg))
    (hres : ∀ td ∈ p, td.taskClass.isSome)
    (hdup : DupFree (p.map taskDeclOf))
    (hacyc : ∀ pm, collectProducers 0 (p.map taskDeclOf) [] = .ok pm →
      ∀ x, ¬ Relation.TransGen (edgeRel (pipeEdges pm 0 (p.map taskDeclOf))) x x) :
    ∃ ids : List Nat,
      orderPipeline fac p = .ok (ids.filterMap (fun i => p[i]?)) ∧
      (ids.filterMap (fun i => p[i]?)).Perm p ∧
      ids.Perm (List.range p.length) ∧
      (∀ (a b : Nat) (ha : a < p.length) (hb : b < p.length)
         (i j : Nat) (hi : i < ids.length) (hj : j < ids.length),
        a ≠ b →
        (∃ nm, nm ∈ (taskDeclOf (p.get ⟨a, ha⟩)).outputs ∧
               nm ∈ (taskDeclOf (p.get ⟨b, hb⟩)).inputs) →
        ids.get ⟨i, hi⟩ = a → ids.get ⟨j, hj⟩ = b → i < j) := by
  have hlen : (p.map taskDeclOf).length = p.length := List.length_map _ _
  have hpd := pipelineDecls_resolved fac p hres
  obtain ⟨pm, hcol⟩ := collectProducers_ok (p.map taskDeclOf) 0 []
    (fun k hk nm _ => rfl) hdup
  have hacyc2 := hacyc pm hcol
  have hclosed : ∀ a b, (a, b) ∈ pipeEdges pm 0 (p.map taskDeclOf) →
      b ∈ List.range p.length → a ∈ List.range p.length := by
    intro a b hab _
    have := (pipeEdges_valid _ pm hcol a b hab).1
    rw [hlen] at this
    exact List.mem_range.mpr this
  obtain ⟨ids, hk⟩ := kahn_ok_of_acyclic _ hacyc2 (List.range p.length) hclosed
  have hord : orderPipeline fac p = .ok (ids.filterMap (fun i => p[i]?)) := by
    simp only [orderPipeline, hpd, hcol, hk]
  have hperm0 : ids.Perm (List.range p.length) := by
    have := kahn_perm _ _ _ _ hk
    simpa using this
  have hndids : ids.Nodup := hperm0.nodup_iff.mpr (List.nodup_range _)
  have hrev := kahn_revTopo _ _ _ hk
  have hpermp : (ids.filterMap (fun i => p[i]?)).Perm p := by
    have h1 := hperm0.filterMap (fun i => p[i]?)
    rw [filterMap_getElem_range p] at h1
    exact h1
  refine ⟨ids, hord, hpermp, hperm0, ?_⟩
  rintro a b ha hb i j hi hj hab ⟨nm, hout, hin⟩ hia hjb
  have hal : a < (p.map taskDeclOf).length := by omega
  have hbl : b < (p.map taskDeclOf).length := by omega
  have hga : (p.map taskDeclOf).get ⟨a, hal⟩ = taskDeclOf (p.get ⟨a, ha⟩) := by
    simp [List.get_eq_getElem, List.getElem_map]
  have hgb : (p.map taskDeclOf).get ⟨b, hbl⟩ = taskDeclOf (p.get ⟨b, hb⟩) := by
    simp [List.get_eq_getElem, List.getElem_map]
  obtain ⟨lbl2, hlk⟩ :=
    collectProducers_complete (p.map taskDeclOf) 0 [] pm hcol a hal nm
      (by rw [hga]; exact hout)
  rw [Nat.zero_add] at hlk
  have hedge : (a, b) ∈ pipeEdges pm 0 (p.map taskDeclOf) := by
    refine (mem_pipeEdges pm (p.map taskDeclOf) 0 a b).mpr
      ⟨b, hbl, by omega, (mem_consumerEdges pm b _ a b).mpr
        ⟨rfl, nm, by rw [hgb]; exact hin, lbl2, hlk, hab⟩⟩
  exact kahn_pos _ ids hrev hndids i j hi hj (by rw [hia, hjb]; exact hedge)

/-- Witness for `orderPipeline_topo` at the one task pipeline, whose
dependency graph is empty and trivially acyclic. -/
theorem orderPipeline_topo_witness :
    (∀ td ∈ singlePipe, td.taskClass.isSome) ∧
    (∃ ids : List Nat,
      orderPipeline none singlePipe = .ok (ids.filterMap (fun i => singlePipe[i]?)) ∧
      (ids.filterMap (fun i => singlePipe[i]?)).Perm singlePipe ∧
      ids.Perm (List.range singlePipe.length) ∧
      (∀ (a b : Nat) (ha : a < singlePipe.length) (hb : b < singlePipe.length)
         (i j : Nat) (hi : i < ids.length) (hj : j < ids.length),
        a ≠ b →
        (∃ nm, nm ∈ (taskDeclOf (singlePipe.get ⟨a, ha⟩)).outputs ∧
               nm ∈ (taskDeclOf (singlePipe.get ⟨b, hb⟩)).inputs) →
        ids.get ⟨i, hi⟩ = a → ids.get ⟨j, hj⟩ = b → i < j)) :=
  ⟨by decide,
   orderPipeline_topo none singlePipe (by decide) (by decide)
     (fun pm h => by
       have hpm : ([("B", 0, "task1")] : List (String × Nat × String)) = pm :=
         Except.ok.inj h
       subst hpm
       intro x hx
       cases hx with
       | single h2 => exact List.not_mem_nil _ h2
       | tail h2 h3 => exact List.not_mem_nil _ h3)⟩

/-- C4: when two distinct tasks of a fully resolved pipeline declare the
same output dataset type name, in either declaration order, both
`isPipelineOrdered` and `orderPipeline` raise the same duplicate output
error.  The failure comes out of the producer collection pass, which runs
before the Kahn ordering loop is ever entered, so no ordering is
attempted. -/
theorem duplicate_output_error {Cfg : Type} (fac : Option (TaskFactory Cfg))
    (p : List (TaskDef Cfg))
    (hres : ∀ td ∈ p, td.taskClass.isSome)
    (i j : Nat) (hi : i < p.length) (hj : j < p.length) (hij : i ≠ j) (nm : String)
    (hoi : nm ∈ (taskDeclOf (p.get ⟨i, hi⟩)).outputs)
    (hoj : nm ∈ (taskDeclOf (p.get ⟨j, hj⟩)).outputs) :
    ∃ nm2 l1 l2,
      isPipelineOrdered fac p = .error (.duplicateOutput nm2 l1 l2) ∧
      orderPipeline fac p = .error (.duplicateOutput nm2 l1 l2) := by
  have hpd := pipelineDecls_resolved fac p hres
  have hlen : (p.map taskDeclOf).length = p.length := List.length_map _ _
  have hil : i < (p.map taskDeclOf).length := by omega
  have hjl : j < (p.map taskDeclOf).length := by omega
  have hgi : (p.map taskDeclOf).get ⟨i, hil⟩ = taskDeclOf (p.get ⟨i, hi⟩) := by
    simp [List.get_eq_getElem, List.getElem_map]
  have hgj : (p.map taskDeclOf).get ⟨j, hjl⟩ = taskDeclOf (p.get ⟨j, hj⟩) := by
    simp [List.get_eq_getElem, List.getElem_map]
  cases hcol : collectProducers 0 (p.map taskDeclOf) [] with
  | ok pm =>
    exfalso
    obtain ⟨l1, h1⟩ := collectProducers_complete _ 0 [] pm hcol i hil nm
      (by rw [hgi]; exact hoi)
    obtain ⟨l2, h2⟩ := collectProducers_complete _ 0 [] pm hcol j hjl nm
      (by rw [hgj]; exact hoj)
    rw [h1] at h2
    have := congrArg Prod.fst (Option.some.inj h2)
    simp at this
    omega
  | error e =>
    obtain ⟨nm2, l1, l2, he⟩ := collectProducers_error _ 0 [] e hcol
    subst he
    refine ⟨nm2, l1, l2, ?_, ?_⟩
    · simp only [isPipelineOrdered, hpd, hcol]
    · simp only [orderPipeline, hpd, hcol]

/-- Witness for `duplicate_output_error` at the duplicate producer pipeline
of the repository tests, where task2 (position 1) and task3 (position 2)
both write C. -/
theorem duplicate_output_error_witness :
    (∀ td ∈ dupPipe, td.taskClass.isSome) ∧
    (∃ nm2 l1 l2,
      isPipelineOrdered none dupPipe = .error (.duplicateOutput nm2 l1 l2) ∧
      orderPipeline none dupPipe = .error (.duplicateOutput nm2 l1 l2)) :=
  ⟨by decide,
   duplicate_output_error none dupPipe (by decide) 1 2 (by decide) (by decide)
     (by decide) "C" (by decide) (by decide)⟩

/-- C5: on a fully resolved, duplicate free pipeline whose dependency graph
holds a cycle, `orderPipeline` raises the cycle error (the embedding is a
total function, so it terminates on every input and in particular never
loops).  The second conjunct states the raising mechanism: whenever
unemitted tasks remain and none of them has all its producers emitted,
that is none has zero in-degree in the residual graph, the Kahn loop
raises the cycle error. -/
theorem orderPipeline_cycle_error {Cfg : Type} (fac : Option (TaskFactory Cfg))
    (p : List (TaskDef Cfg))
    (hres : ∀ td ∈ p, td.taskClass.isSome)
    (hdup : DupFree (p.map taskDeclOf))
    (hcyc : ∀ pm, collectProducers 0 (p.map taskDeclOf) [] = .ok pm →
      ∃ x, Relation.TransGen (edgeRel (pipeEdges pm 0 (p.map taskDeclOf))) x x) :
    orderPipeline fac p = .error .pipelineDataCycle ∧
    (∀ (edges : List (Nat × Nat)) (rem em : List Nat), rem ≠ [] →
      rem.filter (fun t => ready edges em t) = [] →
      kahn edges rem em = .error .pipelineDataCycle) := by
  refine ⟨?_, fun edges rem em => kahn_cycle edges rem em⟩
  have hlen : (p.map taskDeclOf).length = p.length := List.length_map _ _
  have hpd := pipelineDecls_resolved fac p hres
  obtain ⟨pm, hcol⟩ := collectProducers_ok (p.map taskDeclOf) 0 []
    (fun k hk nm _ => rfl) hdup
  obtain ⟨x, hx⟩ := hcyc pm hcol
  have hvalid : ∀ a b, (a, b) ∈ pipeEdges pm 0 (p.map taskDeclOf) →
      a ∈ List.range p.length ∧ b ∈ List.range p.length := by
    intro a b hab
    have h1 := pipeEdges_valid _ pm hcol a b hab
    rw [hlen] at h1
    exact ⟨List.mem_range.mpr h1.1, List.mem_range.mpr h1.2⟩
  cases hk : kahn (pipeEdges pm 0 (p.map taskDeclOf)) (List.range p.length) [] with
  | ok ids =>
    exact absurd hx
      (kahn_no_cycle _ (List.range p.length) ids hk (List.nodup_range _) hvalid x)
  | error e =>
    have he := kahn_error _ _ _ _ hk
    subst he
    simp only [orderPipeline, hpd, hcol, hk]

/-- Witness for `orderPipeline_cycle_error` at the four task cycle pipeline
of the repository tests. -/
theorem orderPipeline_cycle_error_witness :
    (∀ td ∈ cyclePipe, td.taskClass.isSome) ∧
    orderPipeline none cyclePipe = .error .pipelineDataCycle :=
  ⟨by decide,
   (orderPipeline_cycle_error none cyclePipe (by decide) (by decide)
     (fun pm h => by
       have hpm : ([("A", 3, "task4"), ("D", 2, "task3"), ("C", 1, "task2"),
           ("B", 0, "task1")] : List (String × Nat × String)) = pm := Except.ok.inj h
       subst hpm
       refine ⟨0, ?_⟩
       have e01 : edgeRel (pipeEdges [("A", 3, "task4"), ("D", 2, "task3"),
           ("C", 1, "task2"), ("B", 0, "task1")] 0 (List.map taskDeclOf cyclePipe)) 0 1 := by
         decide
       have e12 : edgeRel (pipeEdges [("A", 3, "task4"), ("D", 2, "task3"),
           ("C", 1, "task2"), ("B", 0, "task1")] 0 (List.map taskDeclOf cyclePipe)) 1 2 := by
         decide
       have e23 : edgeRel (pipeEdges [("A", 3, "task4"), ("D", 2, "task3"),
           ("C", 1, "task2"), ("B", 0, "task1")] 0 (List.map taskDeclOf cyclePipe)) 2 3 := by
         decide
       have e30 : edgeRel (pipeEdges [("A", 3, "task4"), ("D", 2, "task3"),
           ("C", 1, "task2"), ("B", 0, "task1")] 0 (List.map taskDeclOf cyclePipe)) 3 0 := by
         decide
       exact Relation.TransGen.head e01 (Relation.TransGen.head e12
         (Relation.TransGen.head e23 (Relation.TransGen.single e30))))).1⟩

/-- When every dependency edge already runs forward in the original order,
the Kahn loop emits the tasks exactly in that order. -/
theorem kahn_forward (edges : List (Nat × Nat)) (n : Nat)
    (hfwd : ∀ e ∈ edges, e.1 < e.2) :
    ∀ (m k : Nat), n - k ≤ m → k ≤ n →
      kahn edges (List.range' k (n - k)) ((List.range k).reverse) =
        .ok (List.range n) := by
  intro m
  induction m with
  | zero =>
    intro k h1 h2
    have hk : k = n := by omega
    have h0 : n - k = 0 := by omega
    rw [h0, show List.range' k 0 = [] from rfl, kahn_nil, List.reverse_reverse, hk]
  | succ m ih =>
    intro k h1 h2
    by_cases hkn : k = n
    · have h0 : n - k = 0 := by omega
      rw [h0, show List.range' k 0 = [] from rfl, kahn_nil, List.reverse_reverse, hkn]
    · have hklt : k < n := by omega
      have hsub : n - k = (n - (k + 1)) + 1 := by omega
      rw [hsub, List.range'_succ]
      have hready : ready edges ((List.range k).reverse) k = true := by
        refine (ready_iff _ _ _).mpr ?_
        intro a ha
        have : a < k := hfwd (a, k) ha
        rw [List.mem_reverse, List.mem_range]
        exact this
      have hfil : (k :: List.range' (k + 1) (n - (k + 1))).filter
          (fun s => ready edges ((List.range k).reverse) s) =
          k :: (List.range' (k + 1) (n - (k + 1))).filter
            (fun s => ready edges ((List.range k).reverse) s) :=
        List.filter_cons_of_pos hready
      rw [kahn_step edges _ _ k _ (by simp) hfil, List.erase_cons_head]
      have hem : (k :: (List.range k).reverse) = (List.range (k + 1)).reverse := by
        rw [List.range_succ, List.reverse_append]
        rfl
      rw [hem]
      exact ih (k + 1) (by omega) (by omega)

/-- A successful exception propagating map determines each output element
from the corresponding input element. -/
theorem exceptMap_ok_get {α β : Type} (f : α → Except PipeError β) :
    ∀ (l : List α) (bs : List β), exceptMap f l = .ok bs →
      ∀ (i : Nat) (hi : i < l.length) (hb : i < bs.length),
        f (l.get ⟨i, hi⟩) = .ok (bs.get ⟨i, hb⟩) := by
  intro l
  induction l with
  | nil => intro bs _ i hi; exact absurd hi (Nat.not_lt_zero i)
  | cons a rest ih =>
    intro bs h i hi hb
    rw [exceptMap] at h
    split at h
    · cases h
    · rename_i b heq
      split at h
      · cases h
      · rename_i bs2 heq2
        cases h
        cases i with
        | zero => exact heq
        | succ i2 =>
          exact ih bs2 heq2 i2 (Nat.lt_of_succ_lt_succ hi) (Nat.lt_of_succ_lt_succ hb)

/-- Stability rigidity of the Kahn loop: if a run started on the original
order produces an emission order that reads back as exactly the original
pipeline, then the emission order is the identity.  The hypothesis `hsame`
transports equality of task records to equality of their declaration
views, which holds for every resolution pass. -/
theorem kahn_stable {Cfg : Type} (p : List (TaskDef Cfg)) (decls : List TaskDecl)
    (pm : List (String × Nat × String))
    (hlen : decls.length = p.length)
    (hsame : ∀ (i j : Nat) (hi : i < p.length) (hj : j < p.length)
      (hi2 : i < decls.length) (hj2 : j < decls.length),
      p.get ⟨i, hi⟩ = p.get ⟨j, hj⟩ → decls.get ⟨i, hi2⟩ = decls.get ⟨j, hj2⟩)
    (hcol : collectProducers 0 decls [] = .ok pm) :
    ∀ (m k : Nat) (ids : List Nat), p.length - k ≤ m → k ≤ p.length →
      kahn (pipeEdges pm 0 decls) (List.range' k (p.length - k))
        ((List.range k).reverse) = .ok ids →
      ids.filterMap (fun i => p[i]?) = p →
      ids = List.range p.length := by
  intro m
  induction m with
  | zero =>
    intro k ids h1 h2 hok hfm
    have hk : k = p.length := by omega
    have h0 : p.length - k = 0 := by omega
    rw [h0, show List.range' k 0 = [] from rfl, kahn_nil] at hok
    have hids : (List.range k).reverse.reverse = ids := Except.ok.inj hok
    rw [List.reverse_reverse] at hids
    rw [← hids, hk]
  | succ m ih =>
    intro k ids h1 h2 hok hfm
    by_cases hkn : k = p.length
    · have h0 : p.length - k = 0 := by omega
      rw [h0, show List.range' k 0 = [] from rfl, kahn_nil] at hok
      have hids : (List.range k).reverse.reverse = ids := Except.ok.inj hok
      rw [List.reverse_reverse] at hids
      rw [← hids, hkn]
    · have hklt : k < p.length := by omega
      have hsub : p.length - k = (p.length - (k + 1)) + 1 := by omega
      rw [hsub, List.range'_succ] at hok
      cases hfil : (k :: List.range' (k + 1) (p.length - (k + 1))).filter
          (fun s => ready (pipeEdges pm 0 decls) ((List.range k).reverse) s) with
      | nil =>
        rw [kahn_cycle _ _ _ (by simp) hfil] at hok
        cases hok
      | cons t rest =>
        rw [kahn_step _ _ _ t rest (by simp) hfil] at hok
        have htf : t ∈ (k :: List.range' (k + 1) (p.length - (k + 1))).filter
            (fun s => ready (pipeEdges pm 0 decls) ((List.range k).reverse) s) :=
          hfil ▸ List.mem_cons_self t rest
        have htm := List.mem_of_mem_filter htf
        have hready_t : ready (pipeEdges pm 0 decls) ((List.range k).reverse) t = true :=
          (List.mem_filter.mp htf).2
        have htk : t = k := by
          by_contra hne2
          have htm2 : t ∈ List.range' (k + 1) (p.length - (k + 1)) := by
            rcases List.mem_cons.mp htm with h | h
            · exact absurd h hne2
            · exact h
          have htb := List.mem_range'_1.mp htm2
          have ht_lt : t < p.length := by omega
          have ht_gt : k < t := by omega
          obtain ⟨s, hs⟩ := kahn_prefix _ _ _ _ hok
          rw [List.reverse_cons, List.reverse_reverse] at hs
          have hvalid_r : ∀ i ∈ (List.range k ++ [t]), i < p.length := by
            intro i hi
            rcases List.mem_append.mp hi with h | h
            · have := List.mem_range.mp h; omega
            · rw [List.mem_singleton] at h; omega
          have hfst_len : ((List.range k ++ [t]).filterMap
              (fun i => p[i]?)).length = k + 1 := by
            rw [filterMap_getElem_length p _ hvalid_r]
            simp
          have hk_lt_len : k < ((List.range k ++ [t]).filterMap
              (fun i => p[i]?)).length := by omega
          have hsplit : ids.filterMap (fun i => p[i]?) =
              (List.range k ++ [t]).filterMap (fun i => p[i]?) ++
              s.filterMap (fun i => p[i]?) := by
            rw [hs, List.filterMap_append]
          have h1 : ((List.range k ++ [t]).filterMap (fun i => p[i]?) ++
              s.filterMap (fun i => p[i]?))[k]? = p[k]? := by
            rw [← hsplit, hfm]
          rw [List.getElem?_append_left hk_lt_len] at h1
          have hlen1 : ((List.range k).filterMap (fun i => p[i]?)).length = k := by
            rw [filterMap_getElem_length p]
            · simp
            · intro i hi
              have := List.mem_range.mp hi
              omega
          have h2 : ((List.range k ++ [t]).filterMap (fun i => p[i]?))[k]? =
              some (p.get ⟨t, ht_lt⟩) := by
            rw [List.filterMap_append, List.getElem?_append_right (by omega), hlen1,
              Nat.sub_self]
            simp [List.getElem?_eq_getElem ht_lt, List.get_eq_getElem]
          have hrec : p.get ⟨k, hklt⟩ = p.get ⟨t, ht_lt⟩ := by
            have h3 := h1.symm.trans h2
            rw [List.getElem?_eq_getElem hklt] at h3
            have := Option.some.inj h3
            rw [List.get_eq_getElem]
            exact this
          have hkd : k < decls.length := by omega
          have htd : t < decls.length := by omega
          have hdecl_eq : decls.get ⟨k, hkd⟩ = decls.get ⟨t, htd⟩ :=
            hsame k t hklt ht_lt hkd htd hrec
          have hout_empty : (decls.get ⟨k, hkd⟩).outputs = [] := by
            cases houts : (decls.get ⟨k, hkd⟩).outputs with
            | nil => rfl
            | cons nm0 rest2 =>
              exfalso
              have hnm0k : nm0 ∈ (decls.get ⟨k, hkd⟩).outputs := by
                rw [houts]
                exact List.mem_cons_self nm0 rest2
              have hnm0t : nm0 ∈ (decls.get ⟨t, htd⟩).outputs := hdecl_eq ▸ hnm0k
              obtain ⟨l1, ha1⟩ := collectProducers_complete decls 0 [] pm hcol k hkd nm0 hnm0k
              obtain ⟨l2, ha2⟩ := collectProducers_complete decls 0 [] pm hcol t htd nm0 hnm0t
              rw [ha1] at ha2
              have := congrArg Prod.fst (Option.some.inj ha2)
              simp at this
              omega
          have hready_k : ready (pipeEdges pm 0 decls) ((List.range k).reverse) k = true := by
            refine (ready_iff _ _ _).mpr ?_
            intro a ha
            obtain ⟨k1, hk1, hb, hc⟩ := (mem_pipeEdges pm decls 0 a k).mp ha
            have hfin1 : (⟨k1, hk1⟩ : Fin decls.length) = ⟨k, hkd⟩ :=
              Fin.ext (show k1 = k by omega)
            rw [hfin1] at hc
            obtain ⟨-, nm, hnm, lbl, hlk, hak⟩ := (mem_consumerEdges pm k _ a k).mp hc
            have hat : a ≠ t := by
              intro hEq
              rcases collectProducers_entries decls 0 [] pm hcol nm a lbl hlk with
                h0 | ⟨k2, hk2, he1, he2, -⟩
              · cases h0
              · have hfin2 : (⟨t, htd⟩ : Fin decls.length) = ⟨k2, hk2⟩ :=
                  Fin.ext (show t = k2 by omega)
                have he3 : nm ∈ (decls.get ⟨t, htd⟩).outputs := by
                  rw [hfin2]
                  exact he2
                have hmem0 : nm ∈ (decls.get ⟨k, hkd⟩).outputs := by
                  rw [hdecl_eq]
                  exact he3
                rw [hout_empty] at hmem0
                cases hmem0
            have hedge_t : (a, t) ∈ pipeEdges pm 0 decls := by
              refine (mem_pipeEdges pm decls 0 a t).mpr ⟨t, htd, by omega, ?_⟩
              refine (mem_consumerEdges pm t _ a t).mpr ⟨rfl, nm, ?_, lbl, hlk, hat⟩
              exact hdecl_eq ▸ hnm
            exact (ready_iff _ _ _).mp hready_t a hedge_t
          rw [List.filter_cons_of_pos hready_k] at hfil
          exact hne2 ((List.cons.inj hfil).1).symm
        subst htk
        rw [List.erase_cons_head] at hok
        have hem : (t :: (List.range t).reverse) = (List.range (t + 1)).reverse := by
          rw [List.range_succ, List.reverse_append]
          rfl
        rw [hem] at hok
        exact ih (t + 1) ids (by omega) (by omega) hok hfm

/-- C3: whenever neither entry point raises an error, `isPipelineOrdered`
answers true exactly when `orderPipeline` returns the pipeline in its
original order; and on a resolved, duplicate free pipeline the check
returns a boolean rather than an error even when the order is wrong. -/
theorem isPipelineOrdered_iff_noop {Cfg : Type} (fac : Option (TaskFactory Cfg))
    (p : List (TaskDef Cfg)) :
    (∀ (b : Bool) (q : List (TaskDef Cfg)),
      isPipelineOrdered fac p = .ok b → orderPipeline fac p = .ok q →
      (b = true ↔ q = p)) ∧
    ((∀ td ∈ p, td.taskClass.isSome) → DupFree (p.map taskDeclOf) →
      ∃ b, isPipelineOrdered fac p = .ok b) := by
  constructor
  · intro b q hiso hord
    cases hpd : pipelineDecls fac p with
    | error e =>
      exfalso
      simp only [isPipelineOrdered, hpd] at hiso
      cases hiso
    | ok decls =>
      cases hcol : collectProducers 0 decls [] with
      | error e =>
        exfalso
        simp only [isPipelineOrdered, hpd, hcol] at hiso
        cases hiso
      | ok pm =>
        have hb : ((pipeEdges pm 0 decls).all (fun e => decide (e.1 < e.2))) = b := by
          simp only [isPipelineOrdered, hpd, hcol] at hiso
          exact Except.ok.inj hiso
        cases hk : kahn (pipeEdges pm 0 decls) (List.range p.length) [] with
        | error e =>
          exfalso
          simp only [orderPipeline, hpd, hcol, hk] at hord
          cases hord
        | ok ids =>
          have hq : ids.filterMap (fun i => p[i]?) = q := by
            simp only [orderPipeline, hpd, hcol, hk] at hord
            exact Except.ok.inj hord
          have hpd2 : exceptMap
              (fun td =>
                match resolveTaskClass fac td with
                | .error e => .error e
                | .ok c =>
                  .ok (⟨td.label, classInputNames c td, classOutputNames c td⟩ : TaskDecl))
              p = .ok decls := by
            rw [pipelineDecls] at hpd
            exact hpd
          have hlen : decls.length = p.length := exceptMap_ok_length _ p decls hpd2
          have hsame : ∀ (i j : Nat) (hi : i < p.length) (hj : j < p.length)
              (hi2 : i < decls.length) (hj2 : j < decls.length),
              p.get ⟨i, hi⟩ = p.get ⟨j, hj⟩ →
              decls.get ⟨i, hi2⟩ = decls.get ⟨j, hj2⟩ := by
            intro i j hi hj hi2 hj2 hpe
            have e1 := exceptMap_ok_get _ p decls hpd2 i hi hi2
            have e2 := exceptMap_ok_get _ p decls hpd2 j hj hj2
            rw [hpe] at e1
            exact Except.ok.inj (e1.symm.trans e2)
          constructor
          · intro hbtrue
            rw [hbtrue] at hb
            have hfwd : ∀ e ∈ pipeEdges pm 0 decls, e.1 < e.2 := by
              intro e he
              exact of_decide_eq_true (List.all_eq_true.mp hb e he)
            have hrun := kahn_forward (pipeEdges pm 0 decls) p.length hfwd p.length 0
              (by omega) (by omega)
            rw [show p.length - 0 = p.length from rfl, ← List.range_eq_range'] at hrun
            have hids : ids = List.range p.length :=
              Except.ok.inj (hk.symm.trans hrun)
            rw [← hq, hids, filterMap_getElem_range]
          · intro hqp
            have hfm : ids.filterMap (fun i => p[i]?) = p := hq.trans hqp
            have hids : ids = List.range p.length := by
              refine kahn_stable p decls pm hlen hsame hcol p.length 0 ids
                (by omega) (by omega) ?_ hfm
              rw [show p.length - 0 = p.length from rfl, ← List.range_eq_range']
              exact hk
            subst hids
            rw [← hb]
            refine List.all_eq_true.mpr ?_
            intro e he
            refine decide_eq_true ?_
            have hval := pipeEdges_valid decls pm hcol e.1 e.2 he
            have h1 : e.1 < p.length := by rw [← hlen]; exact hval.1
            have h2 : e.2 < p.length := by rw [← hlen]; exact hval.2
            have hrev := kahn_revTopo _ _ _ hk
            have hnd : (List.range p.length).Nodup := List.nodup_range _
            have hi : e.1 < (List.range p.length).length := by simpa using h1
            have hj : e.2 < (List.range p.length).length := by simpa using h2
            have hedge : ((List.range p.length).get ⟨e.1, hi⟩,
                (List.range p.length).get ⟨e.2, hj⟩) ∈ pipeEdges pm 0 decls := by
              simp only [List.get_eq_getElem, List.getElem_range]
              exact he
            exact kahn_pos _ _ hrev hnd e.1 e.2 hi hj hedge
  · intro hres hdup
    have hpd := pipelineDecls_resolved fac p hres
    obtain ⟨pm, hcol⟩ := collectProducers_ok (p.map taskDeclOf) 0 []
      (fun k hk nm _ => rfl) hdup
    exact ⟨(pipeEdges pm 0 (p.map taskDeclOf)).all (fun e => decide (e.1 < e.2)),
      by simp only [isPipelineOrdered, hpd, hcol]⟩

/-- Witness for `isPipelineOrdered_iff_noop` at the ordered two task chain:
the check answers true and ordering is a no-op, and on this resolved,
duplicate free pipeline the check returns a boolean. -/
theorem isPipelineOrdered_iff_noop_witness :
    (isPipelineOrdered none chainPipe = .ok true) ∧
    (orderPipeline none chainPipe = .ok chainPipe) ∧
    ((true = true) ↔ (chainPipe = chainPipe)) ∧
    (∃ b, isPipelineOrdered none chainPipe = .ok b) := by
  have hpd2 : pipelineDecls none chainPipe = .ok (chainPipe.map taskDeclOf) :=
    pipelineDecls_resolved none chainPipe (by decide)
  have hcol2 : collectProducers 0 (chainPipe.map taskDeclOf) [] =
      .ok [("C", 1, "task2"), ("B", 0, "task1")] := rfl
  have h1 : kahn (pipeEdges [("C", 1, "task2"), ("B", 0, "task1")] 0
      (chainPipe.map taskDeclOf)) (List.range chainPipe.length) [] =
      .ok (List.range chainPipe.length) :=
    kahn_forward _ 2 (by decide) 2 0 (by omega) (by omega)
  have hord : orderPipeline none chainPipe = .ok chainPipe := by
    simp only [orderPipeline, hpd2, hcol2, h1]
    rfl
  refine ⟨rfl, hord, ?_, ?_⟩
  · exact (isPipelineOrdered_iff_noop none chainPipe).1 true chainPipe rfl hord
  · exact (isPipelineOrdered_iff_noop none chainPipe).2 (by decide) (by decide)
